import Mathlib

/-!
# Verification of the `wit` version-control engine (`src/wit.py`)

Shallow embedding of the versioning engine of `wit.py`:

* Directory snapshots are modelled as finite maps from relative paths
  (lists of path components) to file contents, represented as association
  lists (`Tree`).  Empty directories are not observable through any of the
  operations under study and are not modelled.
* `dircmp`-based structural diffing (`get_changes`,
  `get_changes_to_be_committed`, `get_changes_not_staged`, `get_untracked`)
  is modelled per directory level, exactly as `filecmp.dircmp` recursion
  does: names only (base names, not paths), recursing into directories
  common to both sides.  File equality is modelled as content equality
  (`filecmp` compares by size/content; modification times are not part of
  the model).  Listing order of `os.listdir`/`dircmp` is not part of the
  model; no claim under study depends on it.
* The reference store (`references.txt`) and the activated-branch file are
  modelled at the string level, including `txt_to_dict` line parsing, the
  append-without-newline behaviour of `branch`, and the `r+`-mode
  overwrite of `edit_references`.
* Commit metadata (`<id>.txt`) is modelled by its `parent=` field only;
  `date=`/`message=` fields are read by no operation under study.
* `gen_hash`'s randomness is modelled by an arbitrary pick function.
-/

namespace Wit

/-! ## Directory snapshots -/

/-- A relative path: the list of its components. -/
abbrev Path := List String

/-- A directory snapshot: a finite map from file paths to file contents,
as an association list.  (`.wit` is never part of a snapshot.) -/
abbrev Tree := List (Path × String)

/-- The paths of the files of a snapshot. -/
def pathsOf (t : Tree) : List Path := t.map (·.1)

/-- Content of the file at path `p`, if any. -/
def lookupPath (t : Tree) (p : Path) : Option String :=
  (t.find? (fun e => e.1 = p)).map (·.2)

/-- The entry names (files and directories) appearing at the top level of a
snapshot — what `os.listdir` shows `dircmp` at this level. -/
def names (t : Tree) : List String :=
  (t.filterMap (fun e => e.1.head?)).dedup

/-- Content of the top-level file called `n`, if any. -/
def fileContent (t : Tree) (n : String) : Option String := lookupPath t [n]

/-- `n` is a top-level regular file of the snapshot. -/
def isFileName (t : Tree) (n : String) : Bool := (fileContent t n).isSome

/-- `n` is a top-level directory of the snapshot. -/
def isDirName (t : Tree) (n : String) : Bool :=
  t.any (fun e => e.1.head? = some n ∧ 2 ≤ e.1.length)

/-- The snapshot rooted at top-level directory `n`. -/
def subtree (t : Tree) (n : String) : Tree :=
  t.filterMap (fun e =>
    match e.1 with
    | [] => none
    | m :: rest => if m = n ∧ rest ≠ [] then some (rest, e.2) else none)

/-- Nesting depth of a snapshot: the greatest path length. -/
def treeDepth (t : Tree) : Nat :=
  (t.map (·.1.length)).foldr max 0

/-! ### The structural diff of `wit.get_changes` (lines 608–620)

`get_changes(dcmp, left_only, right_only, diff)` yields, per directory
level, the base names in `dcmp.diff_files` (common regular files with
differing content), `dcmp.left_only`, `dcmp.right_only`, and recurses into
`dcmp.subdirs` (names that are directories on both sides).  Names common
to both sides but a file on one side and a directory on the other are
`common_funny` in `dircmp` and are yielded by nothing.  The recursion
depth is bounded by the snapshot depth; `fuel` makes that bound explicit
and every caller supplies a sufficient amount. -/

def get_changes (fuel : Nat) (l r : Tree) (left_only right_only diff : Bool) :
    List String :=
  match fuel with
  | 0 => []
  | fuel + 1 =>
    let diffFiles := (names l).filter (fun n =>
      isFileName l n && isFileName r n && fileContent l n != fileContent r n)
    let leftOnly := (names l).filter (fun n => !(names r).contains n)
    let rightOnly := (names r).filter (fun n => !(names l).contains n)
    let commonDirs := (names l).filter (fun n => isDirName l n && isDirName r n)
    (if diff then diffFiles else []) ++
      (if left_only then leftOnly else []) ++
      (if right_only then rightOnly else []) ++
      commonDirs.flatMap (fun n =>
        get_changes fuel (subtree l n) (subtree r n) left_only right_only diff)

/-- Fuel sufficient for `get_changes` on `l` and `r`. -/
def changesFuel (l r : Tree) : Nat := treeDepth l + treeDepth r + 1

/-- `wit.get_changes_to_be_committed` (lines 623–628): staging vs HEAD's
snapshot with `left_only=True, right_only=False, diff=True`. -/
def get_changes_to_be_committed (staging headTree : Tree) : List String :=
  get_changes (changesFuel staging headTree) staging headTree true false true

/-- `wit.get_changes_not_staged` (lines 631–634): working tree vs staging
with only `diff=True`. -/
def get_changes_not_staged (working staging : Tree) : List String :=
  get_changes (changesFuel working staging) working staging false false true

/-- `wit.get_untracked` (lines 637–640): working tree vs staging with
`left_only=True, diff=False`. -/
def get_untracked (working staging : Tree) : List String :=
  get_changes (changesFuel working staging) working staging true false false

/-! ### Specification-side path diffs

The spec's Tree Differ contract (§4.4) classifies *relative paths*:
present only under the left tree (`removed` wrt the left-to-right
direction used below as "added to the left"), only under the right, or
present in both with differing content.  These definitions follow the
spec's words and are compared against the code's `get_changes`. -/

/-- Paths present in `l` and absent from `r` (spec: `added` when `l` is the
newer side). -/
def addedPaths (l r : Tree) : List Path :=
  (pathsOf l).filter (fun p => (lookupPath r p).isNone)

/-- Paths present in `r` and absent from `l` (spec: `removed` when `l` is
the newer side). -/
def removedPaths (l r : Tree) : List Path :=
  (pathsOf r).filter (fun p => (lookupPath l p).isNone)

/-- Paths present on both sides with differing content (spec: `modified`). -/
def modifiedPaths (l r : Tree) : List Path :=
  (pathsOf l).filter (fun p =>
    (lookupPath r p).isSome && lookupPath r p != lookupPath l p)

/-- The two snapshots have the same files with the same contents. -/
def treeEquiv (l r : Tree) : Prop := ∀ p, lookupPath l p = lookupPath r p

/-! ### Well-formedness

A snapshot read off a file system has pairwise distinct paths, no empty
path, and no file path that is a proper prefix of another (a path cannot
be both a file and a directory).  Component names avoid `filecmp`'s
default ignore list and `.wit`, which the engine's `dircmp` calls hide. -/

/-- Names hidden by `wit`'s `dircmp` usage: `.wit` (passed explicitly
where used) together with `filecmp.DEFAULT_IGNORES` (active in `merge`'s
comparisons, which pass no `ignore`). -/
def hiddenNames : List String :=
  [".wit", "RCS", "CVS", "tags", ".git", ".hg", ".bzr", "_darcs", "__pycache__"]

/-- Well-formed snapshot. -/
def WFTree (t : Tree) : Prop :=
  (pathsOf t).Nodup ∧
    (∀ p ∈ pathsOf t, p ≠ []) ∧
    (∀ p ∈ pathsOf t, ∀ q ∈ pathsOf t, p.isPrefixOf q → p = q) ∧
    (∀ p ∈ pathsOf t, ∀ c ∈ p, c ∉ hiddenNames)

/-- No file path of one snapshot is a proper prefix of a file path of the
other: no name is a file on one side and a directory on the other,
anywhere.  (`dircmp` puts such names in `common_funny`.) -/
def Compatible (l r : Tree) : Prop :=
  (∀ p ∈ pathsOf l, ∀ q ∈ pathsOf r, p.isPrefixOf q → p = q) ∧
    (∀ q ∈ pathsOf r, ∀ p ∈ pathsOf l, q.isPrefixOf p → q = p)

instance (t : Tree) : Decidable (WFTree t) := by
  unfold WFTree; infer_instance

instance (l r : Tree) : Decidable (Compatible l r) := by
  unfold Compatible; infer_instance

end Wit

namespace Wit

/-! ## Basic lemmas about the snapshot model -/

theorem lookupPath_cons {q : Path} {c : String} {t : Tree} {p : Path} :
    lookupPath ((q, c) :: t) p = if q = p then some c else lookupPath t p := by
  by_cases h : q = p
  · subst h
    unfold lookupPath
    rw [List.find?_cons_of_pos _ (by simp)]
    simp
  · unfold lookupPath
    rw [List.find?_cons_of_neg _ (by simp [h])]
    simp [h]

theorem lookupPath_isSome {t : Tree} {p : Path} :
    (lookupPath t p).isSome = true ↔ p ∈ pathsOf t := by
  induction t with
  | nil => simp [lookupPath, pathsOf]
  | cons e t ih =>
    rcases e with ⟨q, c⟩
    rw [lookupPath_cons]
    by_cases h : q = p
    · simp [h, pathsOf]
    · simp only [if_neg h, ih, pathsOf, List.map_cons, List.mem_cons]
      constructor
      · intro hm
        exact Or.inr hm
      · rintro (hm | hm)
        · exact absurd hm.symm h
        · exact hm

theorem lookupPath_eq_none {t : Tree} {p : Path} :
    lookupPath t p = none ↔ p ∉ pathsOf t := by
  rw [← lookupPath_isSome]
  cases lookupPath t p <;> simp

theorem mem_names {t : Tree} {n : String} :
    n ∈ names t ↔ ∃ p ∈ pathsOf t, p.head? = some n := by
  unfold names pathsOf
  rw [List.mem_dedup, List.mem_filterMap]
  constructor
  · rintro ⟨e, he, hn⟩
    exact ⟨e.1, List.mem_map_of_mem _ he, hn⟩
  · rintro ⟨p, hp, hn⟩
    rcases List.mem_map.mp hp with ⟨e, he, rfl⟩
    exact ⟨e, he, hn⟩

theorem isFileName_iff {t : Tree} {n : String} :
    isFileName t n = true ↔ [n] ∈ pathsOf t := by
  unfold isFileName fileContent
  rw [lookupPath_isSome]

theorem fileContent_eq {t : Tree} {n : String} :
    fileContent t n = lookupPath t [n] := rfl

theorem isDirName_iff {t : Tree} {n : String} :
    isDirName t n = true ↔ ∃ rest, rest ≠ [] ∧ (n :: rest) ∈ pathsOf t := by
  unfold isDirName pathsOf
  rw [List.any_eq_true]
  constructor
  · rintro ⟨e, he, hp⟩
    simp only [decide_eq_true_eq] at hp
    obtain ⟨h1, h2⟩ := hp
    match hme : e.1, h1, h2 with
    | m :: rest, h1, h2 =>
      simp only [List.head?] at h1
      obtain rfl : m = n := by simpa using h1
      refine ⟨rest, ?_, ?_⟩
      · intro h; subst h; simp at h2
      · exact hme ▸ List.mem_map_of_mem _ he
  · rintro ⟨rest, hne, hp⟩
    rcases List.mem_map.mp hp with ⟨e, he, hep⟩
    refine ⟨e, he, ?_⟩
    simp only [decide_eq_true_eq]
    rw [hep]
    cases rest with
    | nil => exact absurd rfl hne
    | cons a l =>
      refine ⟨rfl, ?_⟩
      simp only [List.length_cons]
      omega

theorem mem_names_of_mem_pathsOf {t : Tree} {n : String} {rest : Path}
    (h : (n :: rest) ∈ pathsOf t) : n ∈ names t :=
  mem_names.mpr ⟨n :: rest, h, rfl⟩

theorem pathsOf_subtree_eq (t : Tree) (n : String) :
    pathsOf (subtree t n) = (pathsOf t).filterMap (fun p =>
      match p with
      | [] => none
      | m :: rest => if m = n ∧ rest ≠ [] then some rest else none) := by
  unfold pathsOf subtree
  rw [List.map_filterMap, List.filterMap_map]
  congr 1
  funext e
  rcases e with ⟨p, c⟩
  cases p with
  | nil => rfl
  | cons m rest =>
    simp only [Function.comp]
    split <;> rfl

theorem mem_pathsOf_subtree {t : Tree} {n : String} {p : Path} :
    p ∈ pathsOf (subtree t n) ↔ (n :: p) ∈ pathsOf t ∧ p ≠ [] := by
  rw [pathsOf_subtree_eq, List.mem_filterMap]
  constructor
  · rintro ⟨q, hq, hmap⟩
    cases q with
    | nil => simp at hmap
    | cons m rest =>
      change (if m = n ∧ rest ≠ [] then some rest else none) = some p at hmap
      by_cases hc : m = n ∧ rest ≠ []
      · rw [if_pos hc] at hmap
        obtain ⟨rfl, hne⟩ := hc
        obtain rfl : rest = p := by simpa using hmap
        exact ⟨hq, hne⟩
      · rw [if_neg hc] at hmap
        simp at hmap
  · rintro ⟨hq, hne⟩
    refine ⟨n :: p, hq, ?_⟩
    simp [hne]

theorem subtree_cons_nil {c : String} {t : Tree} {n : String} :
    subtree ((([] : Path), c) :: t) n = subtree t n := by
  simp [subtree, List.filterMap_cons]

theorem subtree_cons_cons {m : String} {rest : Path} {c : String} {t : Tree}
    {n : String} :
    subtree ((m :: rest, c) :: t) n =
      if m = n ∧ rest ≠ [] then (rest, c) :: subtree t n else subtree t n := by
  by_cases hc : m = n ∧ rest ≠ []
  · rw [if_pos hc]
    simp only [subtree, List.filterMap_cons]
    rw [if_pos hc]
  · rw [if_neg hc]
    simp only [subtree, List.filterMap_cons]
    rw [if_neg hc]

theorem lookupPath_subtree {t : Tree} {n : String} {p : Path} (hp : p ≠ []) :
    lookupPath (subtree t n) p = lookupPath t (n :: p) := by
  induction t with
  | nil => rfl
  | cons e t ih =>
    rcases e with ⟨q, c⟩
    cases q with
    | nil =>
      rw [subtree_cons_nil, lookupPath_cons, if_neg, ih]
      intro h
      exact List.noConfusion h
    | cons m rest =>
      rw [subtree_cons_cons]
      by_cases hc : m = n ∧ rest ≠ []
      · rw [if_pos hc, lookupPath_cons, lookupPath_cons]
        obtain ⟨rfl, hne⟩ := hc
        by_cases hrp : rest = p
        · subst hrp
          simp
        · rw [if_neg hrp, if_neg (by simp [hrp]), ih]
      · rw [if_neg hc, lookupPath_cons, ih, if_neg]
        intro h
        injection h with h1 h2
        exact hc ⟨h1, h2 ▸ hp⟩

end Wit

namespace Wit

theorem isPrefixOf_cons_cons {a b : String} {l m : List String} :
    (a :: l).isPrefixOf (b :: m) = true ↔ a = b ∧ l.isPrefixOf m = true := by
  simp [List.isPrefixOf]

theorem treeDepth_le_iff {t : Tree} {k : Nat} :
    treeDepth t ≤ k ↔ ∀ p ∈ pathsOf t, p.length ≤ k := by
  unfold treeDepth pathsOf
  induction t with
  | nil => simp
  | cons e t ih =>
    simp only [List.map_cons, List.foldr_cons, List.mem_cons, Nat.max_le]
    constructor
    · rintro ⟨h1, h2⟩ p hp
      rcases hp with rfl | hp
      · exact h1
      · exact ih.mp h2 p hp
    · intro h
      exact ⟨h e.1 (Or.inl rfl), ih.mpr (fun p hp => h p (Or.inr hp))⟩

theorem treeDepth_subtree_le {t : Tree} {n : String} {fuel : Nat}
    (h : treeDepth t ≤ fuel + 1) : treeDepth (subtree t n) ≤ fuel := by
  rw [treeDepth_le_iff] at h ⊢
  intro p hp
  rw [mem_pathsOf_subtree] at hp
  have := h (n :: p) hp.1
  simpa [List.length_cons] using Nat.le_of_succ_le_succ this

theorem tree_eq_nil_of_depth_zero {t : Tree} (hWF : WFTree t)
    (h : treeDepth t ≤ 0) : t = [] := by
  cases t with
  | nil => rfl
  | cons e t =>
    exfalso
    have h1 := hWF.2.1 e.1 (List.mem_map_of_mem _ (List.mem_cons_self e t))
    have h2 := treeDepth_le_iff.mp h e.1 (List.mem_map_of_mem _ (List.mem_cons_self e t))
    cases hq : e.1 with
    | nil => exact h1 hq
    | cons a l => rw [hq] at h2; simp at h2

theorem WFTree_subtree {t : Tree} (h : WFTree t) (n : String) :
    WFTree (subtree t n) := by
  obtain ⟨hnd, hne, hpre, hhid⟩ := h
  refine ⟨?_, ?_, ?_, ?_⟩
  · rw [pathsOf_subtree_eq]
    refine hnd.filterMap ?_
    intro p q b hb hb'
    cases p with
    | nil => simp at hb
    | cons mp restp =>
      cases q with
      | nil => simp at hb'
      | cons mq restq =>
        change (if mp = n ∧ restp ≠ [] then some restp else none) = some b at hb
        change (if mq = n ∧ restq ≠ [] then some restq else none) = some b at hb'
        by_cases hcp : mp = n ∧ restp ≠ []
        · by_cases hcq : mq = n ∧ restq ≠ []
          · rw [if_pos hcp] at hb
            rw [if_pos hcq] at hb'
            obtain rfl : restp = b := by simpa using hb
            obtain rfl : restq = restp := by simpa using hb'
            rw [hcp.1, hcq.1]
          · rw [if_neg hcq] at hb'
            simp at hb'
        · rw [if_neg hcp] at hb
          simp at hb
  · intro p hp
    exact (mem_pathsOf_subtree.mp hp).2
  · intro p hp q hq hpq
    have hp' := mem_pathsOf_subtree.mp hp
    have hq' := mem_pathsOf_subtree.mp hq
    have : (n :: p).isPrefixOf (n :: q) = true := isPrefixOf_cons_cons.mpr ⟨rfl, hpq⟩
    have := hpre (n :: p) hp'.1 (n :: q) hq'.1 this
    exact List.tail_eq_of_cons_eq this
  · intro p hp c hc
    have hp' := mem_pathsOf_subtree.mp hp
    exact hhid (n :: p) hp'.1 c (List.mem_cons_of_mem _ hc)

theorem Compatible_subtree {l r : Tree} (h : Compatible l r) (n : String) :
    Compatible (subtree l n) (subtree r n) := by
  obtain ⟨h1, h2⟩ := h
  constructor
  · intro p hp q hq hpq
    have hp' := mem_pathsOf_subtree.mp hp
    have hq' := mem_pathsOf_subtree.mp hq
    have : (n :: p).isPrefixOf (n :: q) = true := isPrefixOf_cons_cons.mpr ⟨rfl, hpq⟩
    have := h1 (n :: p) hp'.1 (n :: q) hq'.1 this
    exact List.tail_eq_of_cons_eq this
  · intro q hq p hp hqp
    have hp' := mem_pathsOf_subtree.mp hp
    have hq' := mem_pathsOf_subtree.mp hq
    have : (n :: q).isPrefixOf (n :: p) = true := isPrefixOf_cons_cons.mpr ⟨rfl, hqp⟩
    have := h2 (n :: q) hq'.1 (n :: p) hp'.1 this
    exact List.tail_eq_of_cons_eq this

theorem mem_addedPaths {l r : Tree} {p : Path} :
    p ∈ addedPaths l r ↔ p ∈ pathsOf l ∧ p ∉ pathsOf r := by
  unfold addedPaths
  rw [List.mem_filter]
  constructor
  · rintro ⟨hp, hq⟩
    refine ⟨hp, fun hmem => ?_⟩
    rw [← lookupPath_isSome] at hmem
    rw [Option.isNone_iff_eq_none] at hq
    rw [hq] at hmem
    simp at hmem
  · rintro ⟨hp, hq⟩
    refine ⟨hp, ?_⟩
    rw [Option.isNone_iff_eq_none, lookupPath_eq_none]
    exact hq

theorem mem_removedPaths {l r : Tree} {p : Path} :
    p ∈ removedPaths l r ↔ p ∈ pathsOf r ∧ p ∉ pathsOf l := by
  unfold removedPaths
  rw [List.mem_filter]
  constructor
  · rintro ⟨hp, hq⟩
    refine ⟨hp, fun hmem => ?_⟩
    rw [← lookupPath_isSome] at hmem
    rw [Option.isNone_iff_eq_none] at hq
    rw [hq] at hmem
    simp at hmem
  · rintro ⟨hp, hq⟩
    refine ⟨hp, ?_⟩
    rw [Option.isNone_iff_eq_none, lookupPath_eq_none]
    exact hq

theorem mem_modifiedPaths {l r : Tree} {p : Path} :
    p ∈ modifiedPaths l r ↔
      p ∈ pathsOf l ∧ p ∈ pathsOf r ∧ lookupPath r p ≠ lookupPath l p := by
  unfold modifiedPaths
  rw [List.mem_filter]
  constructor
  · rintro ⟨hp, hq⟩
    rw [Bool.and_eq_true, bne_iff_ne] at hq
    exact ⟨hp, lookupPath_isSome.mp hq.1, hq.2⟩
  · rintro ⟨hp, hq, hne⟩
    refine ⟨hp, ?_⟩
    rw [Bool.and_eq_true, bne_iff_ne]
    exact ⟨lookupPath_isSome.mpr hq, hne⟩

theorem eq_nil_iff_forall_not_mem {α : Type} {l : List α} :
    l = [] ↔ ∀ a, a ∉ l := List.eq_nil_iff_forall_not_mem

end Wit

namespace Wit

theorem cons_eq_cons_tail {α : Type} {a b : α} {l m : List α}
    (h : a :: l = b :: m) : l = m := by
  injection h

theorem contains_iff_mem {α : Type} [BEq α] [LawfulBEq α] {l : List α} {a : α} :
    l.contains a = true ↔ a ∈ l := by
  induction l with
  | nil => simp
  | cons x l ih => simp [List.contains_cons] at ih ⊢

theorem contains_eq_false_iff {α : Type} [BEq α] [LawfulBEq α] {l : List α} {a : α} :
    l.contains a = false ↔ a ∉ l := by
  constructor
  · intro h hm
    rw [contains_iff_mem.mpr hm] at h
    cases h
  · intro h
    cases hcl : l.contains a
    · rfl
    · exact absurd (contains_iff_mem.mp hcl) h

theorem nil_isPrefixOf_any {l : List String} : ([] : Path).isPrefixOf l = true := by
  cases l <;> rfl

theorem if_list_eq_nil_iff {b : Bool} {x : List String} :
    (if b then x else []) = [] ↔ (b = true → x = []) := by
  cases b <;> simp

theorem flatMap_eq_nil_iff' {α β : Type} {l : List α} {f : α → List β} :
    l.flatMap f = [] ↔ ∀ a ∈ l, f a = [] := by
  induction l with
  | nil => simp
  | cons x l ih =>
    simp only [List.flatMap_cons, List.append_eq_nil, ih, List.mem_cons]
    constructor
    · rintro ⟨h1, h2⟩ a ha
      rcases ha with rfl | ha
      · exact h1
      · exact h2 a ha
    · intro h
      exact ⟨h x (Or.inl rfl), fun a ha => h a (Or.inr ha)⟩

theorem get_changes_succ (fuel : Nat) (l r : Tree) (lo ro df : Bool) :
    get_changes (fuel + 1) l r lo ro df =
      (if df then (names l).filter (fun n =>
          isFileName l n && isFileName r n && fileContent l n != fileContent r n)
        else []) ++
      (if lo then (names l).filter (fun n => !(names r).contains n) else []) ++
      (if ro then (names r).filter (fun n => !(names l).contains n) else []) ++
      ((names l).filter (fun n => isDirName l n && isDirName r n)).flatMap (fun n =>
        get_changes fuel (subtree l n) (subtree r n) lo ro df) := rfl

end Wit

namespace Wit

/-- Central characterization: the name-per-level diff of `wit.get_changes`
is empty exactly when the corresponding path-level diffs of the spec are
empty, for well-formed, funny-free pairs of snapshots. -/
theorem get_changes_eq_nil_iff :
    ∀ (fuel : Nat) (l r : Tree) (lo ro df : Bool),
      WFTree l → WFTree r → Compatible l r →
      treeDepth l ≤ fuel → treeDepth r ≤ fuel →
      (get_changes fuel l r lo ro df = [] ↔
        ((df = true → modifiedPaths l r = []) ∧
          (lo = true → addedPaths l r = []) ∧
          (ro = true → removedPaths l r = []))) := by
  intro fuel
  induction fuel with
  | zero =>
    intro l r lo ro df hl hr _ hdl hdr
    rw [tree_eq_nil_of_depth_zero hl hdl, tree_eq_nil_of_depth_zero hr hdr]
    simp [get_changes, addedPaths, removedPaths, modifiedPaths, pathsOf]
  | succ fuel ih =>
    intro l r lo ro df hl hr hc hdl hdr
    have hsub : ∀ n ∈ (names l).filter (fun n => isDirName l n && isDirName r n),
        (get_changes fuel (subtree l n) (subtree r n) lo ro df = [] ↔
          ((df = true → modifiedPaths (subtree l n) (subtree r n) = []) ∧
            (lo = true → addedPaths (subtree l n) (subtree r n) = []) ∧
            (ro = true → removedPaths (subtree l n) (subtree r n) = []))) :=
      fun n _ => ih (subtree l n) (subtree r n) lo ro df (WFTree_subtree hl n)
        (WFTree_subtree hr n) (Compatible_subtree hc n)
        (treeDepth_subtree_le hdl) (treeDepth_subtree_le hdr)
    rw [get_changes_succ, List.append_eq_nil, List.append_eq_nil, List.append_eq_nil,
      if_list_eq_nil_iff, if_list_eq_nil_iff, if_list_eq_nil_iff, flatMap_eq_nil_iff']
    constructor
    · rintro ⟨⟨⟨hA, hB⟩, hC⟩, hD⟩
      refine ⟨?_, ?_, ?_⟩
      · -- the code reports no modification anywhere: no path is modified
        intro hdf
        rw [eq_nil_iff_forall_not_mem]
        intro p hp
        rw [mem_modifiedPaths] at hp
        obtain ⟨hpl, hpr, hdiff⟩ := hp
        obtain ⟨n, rest, rfl⟩ : ∃ n rest, p = n :: rest := by
          cases p with
          | nil => exact absurd rfl (hl.2.1 _ hpl)
          | cons a as => exact ⟨a, as, rfl⟩
        by_cases hrest : rest = []
        · subst hrest
          have hmem : n ∈ (names l).filter (fun n =>
              isFileName l n && isFileName r n && fileContent l n != fileContent r n) := by
            rw [List.mem_filter]
            refine ⟨mem_names_of_mem_pathsOf hpl, ?_⟩
            rw [Bool.and_eq_true, Bool.and_eq_true, bne_iff_ne]
            exact ⟨⟨isFileName_iff.mpr hpl, isFileName_iff.mpr hpr⟩,
              fun h => hdiff h.symm⟩
          rw [hA hdf] at hmem
          exact List.not_mem_nil _ hmem
        · have hdirl : isDirName l n = true := isDirName_iff.mpr ⟨rest, hrest, hpl⟩
          have hdirr : isDirName r n = true := isDirName_iff.mpr ⟨rest, hrest, hpr⟩
          have hcomm : n ∈ (names l).filter (fun n => isDirName l n && isDirName r n) := by
            rw [List.mem_filter, Bool.and_eq_true]
            exact ⟨mem_names_of_mem_pathsOf hpl, hdirl, hdirr⟩
          have hmodsub := ((hsub n hcomm).mp (hD n hcomm)).1 hdf
          rw [eq_nil_iff_forall_not_mem] at hmodsub
          refine hmodsub rest ?_
          rw [mem_modifiedPaths]
          refine ⟨mem_pathsOf_subtree.mpr ⟨hpl, hrest⟩,
            mem_pathsOf_subtree.mpr ⟨hpr, hrest⟩, ?_⟩
          rw [lookupPath_subtree hrest, lookupPath_subtree hrest]
          exact hdiff
      · -- the code reports nothing left-only: no path is added
        intro hlo
        rw [eq_nil_iff_forall_not_mem]
        intro p hp
        rw [mem_addedPaths] at hp
        obtain ⟨hpl, hpnr⟩ := hp
        obtain ⟨n, rest, rfl⟩ : ∃ n rest, p = n :: rest := by
          cases p with
          | nil => exact absurd rfl (hl.2.1 _ hpl)
          | cons a as => exact ⟨a, as, rfl⟩
        by_cases hnr : n ∈ names r
        · obtain ⟨q, hq, hqh⟩ := mem_names.mp hnr
          obtain ⟨m, qrest, rfl⟩ : ∃ m qrest, q = m :: qrest := by
            cases q with
            | nil => simp at hqh
            | cons a as => exact ⟨a, as, rfl⟩
          have hmn : m = n := by simpa using hqh
          rw [hmn] at hq
          by_cases hrest : rest = []
          · subst hrest
            have hpre : ([n] : Path).isPrefixOf (n :: qrest) = true := by
              rw [isPrefixOf_cons_cons]
              exact ⟨rfl, nil_isPrefixOf_any⟩
            have heq := hc.1 [n] hpl (n :: qrest) hq hpre
            exact hpnr (heq ▸ hq)
          · have hqrest : qrest ≠ [] := by
              intro h
              subst h
              have hpre : ([n] : Path).isPrefixOf (n :: rest) = true := by
                rw [isPrefixOf_cons_cons]
                exact ⟨rfl, nil_isPrefixOf_any⟩
              have heq := hc.2 [n] hq (n :: rest) hpl hpre
              exact hrest (cons_eq_cons_tail heq).symm
            have hdirl : isDirName l n = true := isDirName_iff.mpr ⟨rest, hrest, hpl⟩
            have hdirr : isDirName r n = true := isDirName_iff.mpr ⟨qrest, hqrest, hq⟩
            have hcomm : n ∈ (names l).filter (fun n => isDirName l n && isDirName r n) := by
              rw [List.mem_filter, Bool.and_eq_true]
              exact ⟨mem_names_of_mem_pathsOf hpl, hdirl, hdirr⟩
            have haddsub := ((hsub n hcomm).mp (hD n hcomm)).2.1 hlo
            rw [eq_nil_iff_forall_not_mem] at haddsub
            refine haddsub rest ?_
            rw [mem_addedPaths]
            refine ⟨mem_pathsOf_subtree.mpr ⟨hpl, hrest⟩, fun hmem => ?_⟩
            exact hpnr (mem_pathsOf_subtree.mp hmem).1
        · have hmem : n ∈ (names l).filter (fun n => !(names r).contains n) := by
            rw [List.mem_filter]
            refine ⟨mem_names_of_mem_pathsOf hpl, ?_⟩
            rw [Bool.not_eq_true']
            exact contains_eq_false_iff.mpr hnr
          rw [hB hlo] at hmem
          exact List.not_mem_nil _ hmem
      · -- the code reports nothing right-only: no path is removed
        intro hro
        rw [eq_nil_iff_forall_not_mem]
        intro p hp
        rw [mem_removedPaths] at hp
        obtain ⟨hpr, hpnl⟩ := hp
        obtain ⟨n, rest, rfl⟩ : ∃ n rest, p = n :: rest := by
          cases p with
          | nil => exact absurd rfl (hr.2.1 _ hpr)
          | cons a as => exact ⟨a, as, rfl⟩
        by_cases hnl : n ∈ names l
        · obtain ⟨q, hq, hqh⟩ := mem_names.mp hnl
          obtain ⟨m, qrest, rfl⟩ : ∃ m qrest, q = m :: qrest := by
            cases q with
            | nil => simp at hqh
            | cons a as => exact ⟨a, as, rfl⟩
          have hmn : m = n := by simpa using hqh
          rw [hmn] at hq
          by_cases hrest : rest = []
          · subst hrest
            have hpre : ([n] : Path).isPrefixOf (n :: qrest) = true := by
              rw [isPrefixOf_cons_cons]
              exact ⟨rfl, nil_isPrefixOf_any⟩
            have heq := hc.2 [n] hpr (n :: qrest) hq hpre
            exact hpnl (heq ▸ hq)
          · have hqrest : qrest ≠ [] := by
              intro h
              subst h
              have hpre : ([n] : Path).isPrefixOf (n :: rest) = true := by
                rw [isPrefixOf_cons_cons]
                exact ⟨rfl, nil_isPrefixOf_any⟩
              have heq := hc.1 [n] hq (n :: rest) hpr hpre
              exact hrest (cons_eq_cons_tail heq).symm
            have hdirr : isDirName r n = true := isDirName_iff.mpr ⟨rest, hrest, hpr⟩
            have hdirl : isDirName l n = true := isDirName_iff.mpr ⟨qrest, hqrest, hq⟩
            have hcomm : n ∈ (names l).filter (fun n => isDirName l n && isDirName r n) := by
              rw [List.mem_filter, Bool.and_eq_true]
              exact ⟨hnl, hdirl, hdirr⟩
            have hremsub := ((hsub n hcomm).mp (hD n hcomm)).2.2 hro
            rw [eq_nil_iff_forall_not_mem] at hremsub
            refine hremsub rest ?_
            rw [mem_removedPaths]
            refine ⟨mem_pathsOf_subtree.mpr ⟨hpr, hrest⟩, fun hmem => ?_⟩
            exact hpnl (mem_pathsOf_subtree.mp hmem).1
        · have hmem : n ∈ (names r).filter (fun n => !(names l).contains n) := by
            rw [List.mem_filter]
            refine ⟨mem_names_of_mem_pathsOf hpr, ?_⟩
            rw [Bool.not_eq_true']
            exact contains_eq_false_iff.mpr hnl
          rw [hC hro] at hmem
          exact List.not_mem_nil _ hmem
    · rintro ⟨hm, ha, hrem⟩
      refine ⟨⟨⟨?_, ?_⟩, ?_⟩, ?_⟩
      · intro hdf
        rw [eq_nil_iff_forall_not_mem]
        intro n hn
        rw [List.mem_filter, Bool.and_eq_true, Bool.and_eq_true, bne_iff_ne] at hn
        obtain ⟨hnl, ⟨hf1, hf2⟩, hnee⟩ := hn
        have hmem : [n] ∈ modifiedPaths l r := by
          rw [mem_modifiedPaths]
          exact ⟨isFileName_iff.mp hf1, isFileName_iff.mp hf2, fun h => hnee h.symm⟩
        rw [hm hdf] at hmem
        exact List.not_mem_nil _ hmem
      · intro hlo
        rw [eq_nil_iff_forall_not_mem]
        intro n hn
        rw [List.mem_filter, Bool.not_eq_true'] at hn
        obtain ⟨hnl, hpred⟩ := hn
        have hnr : n ∉ names r := contains_eq_false_iff.mp hpred
        obtain ⟨p, hp, hph⟩ := mem_names.mp hnl
        have hpnr : p ∉ pathsOf r := by
          intro hmem
          obtain ⟨m, rest, rfl⟩ : ∃ m rest, p = m :: rest := by
            cases p with
            | nil => simp at hph
            | cons a as => exact ⟨a, as, rfl⟩
          obtain rfl : m = n := by simpa using hph
          exact hnr (mem_names_of_mem_pathsOf hmem)
        have hmem : p ∈ addedPaths l r := mem_addedPaths.mpr ⟨hp, hpnr⟩
        rw [ha hlo] at hmem
        exact List.not_mem_nil _ hmem
      · intro hro
        rw [eq_nil_iff_forall_not_mem]
        intro n hn
        rw [List.mem_filter, Bool.not_eq_true'] at hn
        obtain ⟨hnr, hpred⟩ := hn
        have hnl : n ∉ names l := contains_eq_false_iff.mp hpred
        obtain ⟨p, hp, hph⟩ := mem_names.mp hnr
        have hpnl : p ∉ pathsOf l := by
          intro hmem
          obtain ⟨m, rest, rfl⟩ : ∃ m rest, p = m :: rest := by
            cases p with
            | nil => simp at hph
            | cons a as => exact ⟨a, as, rfl⟩
          obtain rfl : m = n := by simpa using hph
          exact hnl (mem_names_of_mem_pathsOf hmem)
        have hmem : p ∈ removedPaths l r := mem_removedPaths.mpr ⟨hp, hpnl⟩
        rw [hrem hro] at hmem
        exact List.not_mem_nil _ hmem
      · intro n hn
        rw [hsub n hn]
        refine ⟨?_, ?_, ?_⟩
        · intro hdf
          rw [eq_nil_iff_forall_not_mem]
          intro rest hrmem
          rw [mem_modifiedPaths] at hrmem
          obtain ⟨h1, h2, h3⟩ := hrmem
          have hrest : rest ≠ [] := (mem_pathsOf_subtree.mp h1).2
          have hmem : (n :: rest) ∈ modifiedPaths l r := by
            rw [mem_modifiedPaths]
            refine ⟨(mem_pathsOf_subtree.mp h1).1, (mem_pathsOf_subtree.mp h2).1, ?_⟩
            rw [← lookupPath_subtree hrest, ← lookupPath_subtree hrest]
            exact h3
          rw [hm hdf] at hmem
          exact List.not_mem_nil _ hmem
        · intro hlo
          rw [eq_nil_iff_forall_not_mem]
          intro rest hrmem
          rw [mem_addedPaths] at hrmem
          obtain ⟨h1, h2⟩ := hrmem
          have hrest : rest ≠ [] := (mem_pathsOf_subtree.mp h1).2
          have hmem : (n :: rest) ∈ addedPaths l r := by
            rw [mem_addedPaths]
            refine ⟨(mem_pathsOf_subtree.mp h1).1, fun hmem => ?_⟩
            exact h2 (mem_pathsOf_subtree.mpr ⟨hmem, hrest⟩)
          rw [ha hlo] at hmem
          exact List.not_mem_nil _ hmem
        · intro hro
          rw [eq_nil_iff_forall_not_mem]
          intro rest hrmem
          rw [mem_removedPaths] at hrmem
          obtain ⟨h1, h2⟩ := hrmem
          have hrest : rest ≠ [] := (mem_pathsOf_subtree.mp h1).2
          have hmem : (n :: rest) ∈ removedPaths l r := by
            rw [mem_removedPaths]
            refine ⟨(mem_pathsOf_subtree.mp h1).1, fun hmem => ?_⟩
            exact h2 (mem_pathsOf_subtree.mpr ⟨hmem, hrest⟩)
          rw [hrem hro] at hmem
          exact List.not_mem_nil _ hmem

end Wit

namespace Wit

theorem get_changes_self (fuel : Nat) (t : Tree) (lo ro df : Bool) :
    get_changes fuel t t lo ro df = [] := by
  induction fuel generalizing t with
  | zero => rfl
  | succ fuel ih =>
    rw [get_changes_succ]
    have h1 : (names t).filter (fun n =>
        isFileName t n && isFileName t n && fileContent t n != fileContent t n) = [] := by
      rw [eq_nil_iff_forall_not_mem]
      intro n hn
      rw [List.mem_filter, Bool.and_eq_true, Bool.and_eq_true, bne_iff_ne] at hn
      exact hn.2.2 rfl
    have h2 : (names t).filter (fun n => !(names t).contains n) = [] := by
      rw [eq_nil_iff_forall_not_mem]
      intro n hn
      rw [List.mem_filter, Bool.not_eq_true'] at hn
      exact contains_eq_false_iff.mp hn.2 hn.1
    have h4 : ((names t).filter (fun n => isDirName t n && isDirName t n)).flatMap
        (fun n => get_changes fuel (subtree t n) (subtree t n) lo ro df) = [] := by
      rw [flatMap_eq_nil_iff']
      intro n _
      exact ih (subtree t n)
    simp only [h1, h2, h4]
    cases df <;> cases lo <;> cases ro <;> simp

theorem treeEquiv_iff_diffs_nil {l r : Tree} :
    treeEquiv l r ↔
      (modifiedPaths l r = [] ∧ addedPaths l r = [] ∧ removedPaths l r = []) := by
  constructor
  · intro h
    refine ⟨?_, ?_, ?_⟩ <;> rw [eq_nil_iff_forall_not_mem] <;> intro p hp
    · rw [mem_modifiedPaths] at hp
      exact hp.2.2 (h p).symm
    · rw [mem_addedPaths] at hp
      obtain ⟨h1, h2⟩ := hp
      rw [← lookupPath_isSome, h p] at h1
      exact h2 (lookupPath_isSome.mp h1)
    · rw [mem_removedPaths] at hp
      obtain ⟨h1, h2⟩ := hp
      rw [← lookupPath_isSome, ← h p] at h1
      exact h2 (lookupPath_isSome.mp h1)
  · rintro ⟨hm, ha, hr⟩ p
    rw [eq_nil_iff_forall_not_mem] at hm ha hr
    by_cases hpl : p ∈ pathsOf l
    · by_cases hpr : p ∈ pathsOf r
      · by_cases heq : lookupPath r p = lookupPath l p
        · exact heq.symm
        · exact absurd (mem_modifiedPaths.mpr ⟨hpl, hpr, heq⟩) (hm p)
      · exact absurd (mem_addedPaths.mpr ⟨hpl, hpr⟩) (ha p)
    · by_cases hpr : p ∈ pathsOf r
      · exact absurd (mem_removedPaths.mpr ⟨hpr, hpl⟩) (hr p)
      · rw [lookupPath_eq_none.mpr hpl, lookupPath_eq_none.mpr hpr]

/-! ### Copy-tree overlays

`shutil.copytree(src, dst, ..., dirs_exist_ok=True)` copies the files of
`src` over `dst`, keeping files of `dst` that `src` does not have. -/

/-- Result of copying the files `add` over the snapshot `dst`. -/
def overrideTree (dst add : Tree) : Tree :=
  dst.filter (fun e => !(add.any (fun a => a.1 = e.1))) ++ add

theorem find?_filter_of_imp {α : Type} {p q : α → Bool} {l : List α}
    (h : ∀ x, p x = true → q x = true) :
    (l.filter q).find? p = l.find? p := by
  induction l with
  | nil => rfl
  | cons x l ih =>
    by_cases hq : q x = true
    · rw [List.filter_cons_of_pos hq]
      by_cases hp : p x = true
      · rw [List.find?_cons_of_pos _ hp, List.find?_cons_of_pos _ hp]
      · rw [List.find?_cons_of_neg _ (by simp [hp]), List.find?_cons_of_neg _ (by simp [hp])]
        exact ih
    · rw [List.filter_cons_of_neg (by simp [hq])]
      have hp : p x = false := by
        cases hpx : p x
        · rfl
        · exact absurd (h x hpx) hq
      rw [List.find?_cons_of_neg _ (by simp [hp])]
      exact ih

theorem lookupPath_overrideTree {dst add : Tree} {p : Path} :
    lookupPath (overrideTree dst add) p =
      if p ∈ pathsOf add then lookupPath add p else lookupPath dst p := by
  unfold overrideTree lookupPath
  rw [List.find?_append]
  by_cases hmem : p ∈ pathsOf add
  · rw [if_pos hmem]
    have hnone : (dst.filter (fun e => !(add.any (fun a => a.1 = e.1)))).find?
        (fun e => decide (e.1 = p)) = none := by
      rw [List.find?_eq_none]
      intro e he hep
      rw [List.mem_filter] at he
      obtain ⟨-, hkeep⟩ := he
      rw [Bool.not_eq_true'] at hkeep
      simp only [decide_eq_true_eq] at hep
      rcases List.mem_map.mp hmem with ⟨a, ha, rfl⟩
      have : add.any (fun b => b.1 = e.1) = true := by
        rw [List.any_eq_true]
        exact ⟨a, ha, by simp [hep]⟩
      rw [hkeep] at this
      cases this
    rw [hnone, Option.none_or]
  · rw [if_neg hmem]
    have hnone : add.find? (fun e => decide (e.1 = p)) = none := by
      rw [List.find?_eq_none]
      intro e he hep
      simp only [decide_eq_true_eq] at hep
      exact hmem (hep ▸ List.mem_map_of_mem _ he)
    rw [hnone, Option.or_none]
    congr 1
    refine find?_filter_of_imp ?_
    intro e hep
    simp only [decide_eq_true_eq] at hep
    rw [Bool.not_eq_true']
    cases hany : add.any (fun a => a.1 = e.1)
    · rfl
    · rw [List.any_eq_true] at hany
      obtain ⟨a, ha, haa⟩ := hany
      simp only [decide_eq_true_eq] at haa
      refine absurd ?_ hmem
      rw [← hep, ← haa]
      exact List.mem_map_of_mem (fun x => x.1) ha

theorem mem_pathsOf_overrideTree {dst add : Tree} {p : Path} :
    p ∈ pathsOf (overrideTree dst add) ↔ p ∈ pathsOf dst ∨ p ∈ pathsOf add := by
  constructor
  · intro h
    rw [← lookupPath_isSome, lookupPath_overrideTree] at h
    by_cases hmem : p ∈ pathsOf add
    · exact Or.inr hmem
    · rw [if_neg hmem] at h
      exact Or.inl (lookupPath_isSome.mp h)
  · intro h
    rw [← lookupPath_isSome, lookupPath_overrideTree]
    by_cases hmem : p ∈ pathsOf add
    · rw [if_pos hmem, lookupPath_isSome]
      exact hmem
    · rw [if_neg hmem, lookupPath_isSome]
      rcases h with h | h
      · exact h
      · exact absurd h hmem

theorem pathsOf_filter_subset {t : Tree} {q : Path × String → Bool} {p : Path}
    (h : p ∈ pathsOf (t.filter q)) : p ∈ pathsOf t := by
  rcases List.mem_map.mp h with ⟨e, he, rfl⟩
  exact List.mem_map_of_mem _ (List.mem_of_mem_filter he)

theorem WFTree_filter {t : Tree} (h : WFTree t) (q : Path × String → Bool) :
    WFTree (t.filter q) := by
  obtain ⟨hnd, hne, hpre, hhid⟩ := h
  refine ⟨?_, ?_, ?_, ?_⟩
  · exact hnd.sublist (List.Sublist.map _ (List.filter_sublist t))
  · exact fun p hp => hne p (pathsOf_filter_subset hp)
  · exact fun p hp q' hq' => hpre p (pathsOf_filter_subset hp) q' (pathsOf_filter_subset hq')
  · exact fun p hp => hhid p (pathsOf_filter_subset hp)

theorem Compatible_of_subset {l l' r r' : Tree}
    (h : Compatible l r) (hl : ∀ p ∈ pathsOf l', p ∈ pathsOf l)
    (hr : ∀ p ∈ pathsOf r', p ∈ pathsOf r) : Compatible l' r' :=
  ⟨fun p hp q hq => h.1 p (hl p hp) q (hr q hq),
    fun q hq p hp => h.2 q (hr q hq) p (hl p hp)⟩

theorem WFTree_overrideTree {dst add : Tree} (hd : WFTree dst) (ha : WFTree add)
    (hc : Compatible dst add) : WFTree (overrideTree dst add) := by
  have hmem : ∀ p ∈ pathsOf (overrideTree dst add), p ∈ pathsOf dst ∨ p ∈ pathsOf add :=
    fun p hp => mem_pathsOf_overrideTree.mp hp
  refine ⟨?_, ?_, ?_, ?_⟩
  · unfold overrideTree
    unfold pathsOf
    rw [List.map_append]
    refine List.Nodup.append ?_ ha.1 ?_
    · exact hd.1.sublist (List.Sublist.map _ (List.filter_sublist dst))
    · intro p hp hq
      rcases List.mem_map.mp hp with ⟨e, he, rfl⟩
      rw [List.mem_filter] at he
      obtain ⟨-, hkeep⟩ := he
      rw [Bool.not_eq_true'] at hkeep
      rcases List.mem_map.mp hq with ⟨a, haa, hae⟩
      have : add.any (fun b => b.1 = e.1) = true := by
        rw [List.any_eq_true]
        exact ⟨a, haa, by simp [hae]⟩
      rw [hkeep] at this
      cases this
  · intro p hp
    rcases hmem p hp with h | h
    · exact hd.2.1 p h
    · exact ha.2.1 p h
  · intro p hp q hq hpq
    rcases hmem p hp with h1 | h1 <;> rcases hmem q hq with h2 | h2
    · exact hd.2.2.1 p h1 q h2 hpq
    · exact hc.1 p h1 q h2 hpq
    · exact hc.2 p h1 q h2 hpq
    · exact ha.2.2.1 p h1 q h2 hpq
  · intro p hp
    rcases hmem p hp with h | h
    · exact hd.2.2.2 p h
    · exact ha.2.2.2 p h

end Wit

namespace Wit

/-! ## The reference store: `references.txt` at the string level

`wit` reads `references.txt` through `txt_to_dict` (split lines, split each
line on a single `=`), appends `name=id` *without* a newline in `branch`,
and rewrites through `edit_references` with mode `r+` (overwriting from
position 0, leaving any tail of the old content in place).  All of this is
modelled exactly, over the character lists underlying the strings. -/

/-- Python `str.split(sep)` for a one-character separator. -/
def chSplit (sep : Char) : List Char → List (List Char)
  | [] => [[]]
  | c :: cs =>
    match chSplit sep cs with
    | [] => [[]]
    | h :: t => if c = sep then [] :: h :: t else (c :: h) :: t

/-- Python `str.splitlines` for content whose only separator is a newline:
split on newline, with no chunk after a trailing newline. -/
def splitlinesCh (l : List Char) : List (List Char) :=
  let parts := chSplit '\n' l
  if parts.getLast? = some [] then parts.dropLast else parts

/-- One line of `txt_to_dict`: `line.split('=')` must give exactly a key
and a value; anything else raises `ValueError` in the dict comprehension
(modelled as `none`). -/
def parseLine (l : List Char) : Option (String × String) :=
  match chSplit '=' l with
  | [k, v] => some (String.mk k, String.mk v)
  | _ => none

/-- Python `dict` insertion: an existing key keeps its position and gets the
new value; a new key is appended. -/
def dictInsert (d : List (String × String)) (k v : String) :
    List (String × String) :=
  if d.any (fun e => e.1 = k) then
    d.map (fun e => if e.1 = k then (k, v) else e)
  else d ++ [(k, v)]

/-- Python `dict` lookup (`dict.get`). -/
def dictGet (d : List (String × String)) (k : String) : Option String :=
  (d.find? (fun e => e.1 = k)).map (·.2)

/-- Python `in` on a dict. -/
def dictMem (d : List (String × String)) (k : String) : Bool :=
  d.any (fun e => e.1 = k)

/-- `wit.txt_to_dict` (lines 491–502): a missing or empty file gives the
empty dict; otherwise each line is split on `=` and inserted in order.
`none` models the `ValueError` thrown on a malformed line. -/
def txt_to_dict (s : String) : Option (List (String × String)) :=
  if s = "" then some [] else
    ((splitlinesCh s.data).mapM parseLine).map
      (fun kvs => kvs.foldl (fun d kv => dictInsert d kv.1 kv.2) [])

/-- The content `edit_references`/`gen_references` build for a dict: one
`k=v` line per entry, each ending in a newline. -/
def serializeRefs (d : List (String × String)) : String :=
  match d with
  | [] => ""
  | e :: rest => e.1 ++ "=" ++ e.2 ++ "\n" ++ serializeRefs rest

/-- Writing `new` from position 0 into a file previously holding `old`,
in mode `r+` (no truncation): any tail of `old` beyond `new` survives. -/
def rplusWrite (old new : String) : String :=
  new ++ String.mk (old.data.drop new.data.length)

/-- `wit.edit_references` (lines 571–579): parse the file, upsert the
reference, serialize the dict and write it back in mode `r+`. -/
def edit_references (refName refId : String) (file : String) : Option String :=
  (txt_to_dict file).map (fun ref =>
    rplusWrite file (serializeRefs (dictInsert ref refName refId)))

/-- Key/value pair that serializes and re-parses cleanly. -/
def GoodKV (e : String × String) : Prop :=
  '\n' ∉ e.1.data ∧ '=' ∉ e.1.data ∧ '\n' ∉ e.2.data ∧ '=' ∉ e.2.data

instance (e : String × String) : Decidable (GoodKV e) := by
  unfold GoodKV; infer_instance

/-- A well-formed on-disk reference store: it parses to `d`, it is no longer
than the clean serialization of `d` (the file is the serialization, possibly
missing the final newline after a `branch` append), its keys are distinct
and clean, and every value is a 40-character identifier. -/
def RefsWF (file : String) (d : List (String × String)) : Prop :=
  txt_to_dict file = some d ∧
    file.length ≤ (serializeRefs d).length ∧
    (d.map (·.1)).Nodup ∧
    (∀ e ∈ d, GoodKV e) ∧
    (∀ e ∈ d, e.2.length = 40)

instance (file : String) (d : List (String × String)) : Decidable (RefsWF file d) := by
  unfold RefsWF; infer_instance

end Wit

namespace Wit

theorem chSplit_cons (sep c : Char) (cs : List Char) :
    chSplit sep (c :: cs) =
      match chSplit sep cs with
      | [] => [[]]
      | h :: t => if c = sep then [] :: h :: t else (c :: h) :: t := rfl

theorem chSplit_ne_nil {sep : Char} {l : List Char} : chSplit sep l ≠ [] := by
  cases l with
  | nil => simp [chSplit]
  | cons c cs =>
    rw [chSplit_cons]
    cases chSplit sep cs with
    | nil => simp
    | cons h t => by_cases hc : c = sep <;> simp [hc]

theorem chSplit_append_sep {sep : Char} {x y : List Char} (hx : sep ∉ x) :
    chSplit sep (x ++ sep :: y) = x :: chSplit sep y := by
  induction x with
  | nil =>
    rw [List.nil_append, chSplit_cons]
    cases hy : chSplit sep y with
    | nil => exact absurd hy chSplit_ne_nil
    | cons h t => simp
  | cons c x ih =>
    have hc : c ≠ sep := fun h => hx (h ▸ List.mem_cons_self c x)
    have hx' : sep ∉ x := fun h => hx (List.mem_cons_of_mem _ h)
    rw [List.cons_append, chSplit_cons, ih hx']
    simp [hc]

theorem chSplit_no_sep {sep : Char} {x : List Char} (hx : sep ∉ x) :
    chSplit sep x = [x] := by
  induction x with
  | nil => rfl
  | cons c x ih =>
    have hc : c ≠ sep := fun h => hx (h ▸ List.mem_cons_self c x)
    have hx' : sep ∉ x := fun h => hx (List.mem_cons_of_mem _ h)
    rw [chSplit_cons, ih hx']
    simp [hc]

theorem string_mk_data (s : String) : String.mk s.data = s := rfl

theorem serializeRefs_cons (e : String × String) (d : List (String × String)) :
    serializeRefs (e :: d) = e.1 ++ "=" ++ e.2 ++ "\n" ++ serializeRefs d := rfl

theorem serializeRefs_data (d : List (String × String)) :
    (serializeRefs d).data =
      (d.map (fun e => e.1.data ++ '=' :: (e.2.data ++ ['\n']))).flatten := by
  induction d with
  | nil => rfl
  | cons e d ih =>
    rw [serializeRefs_cons]
    simp only [List.map_cons, List.flatten_cons, ← ih]
    simp [String.data_append]

theorem chSplit_serializeRefs {d : List (String × String)}
    (hgood : ∀ e ∈ d, GoodKV e) :
    chSplit '\n' (serializeRefs d).data =
      (d.map (fun e => e.1.data ++ '=' :: e.2.data)) ++ [[]] := by
  induction d with
  | nil => rfl
  | cons e d ih =>
    have hge := hgood e (List.mem_cons_self e d)
    have hnl : '\n' ∉ e.1.data ++ '=' :: e.2.data := by
      intro hmem
      rcases List.mem_append.mp hmem with h | h
      · exact hge.1 h
      · rcases List.mem_cons.mp h with h | h
        · cases h
        · exact hge.2.2.1 h
    have hdata : (serializeRefs (e :: d)).data =
        (e.1.data ++ '=' :: e.2.data) ++ '\n' :: (serializeRefs d).data := by
      rw [serializeRefs_cons]
      simp [String.data_append]
    rw [hdata, chSplit_append_sep hnl, ih (fun x hx => hgood x (List.mem_cons_of_mem _ hx))]
    rfl

theorem splitlines_serializeRefs {d : List (String × String)}
    (hgood : ∀ e ∈ d, GoodKV e) :
    splitlinesCh (serializeRefs d).data =
      d.map (fun e => e.1.data ++ '=' :: e.2.data) := by
  unfold splitlinesCh
  rw [chSplit_serializeRefs hgood]
  rw [if_pos (by simp), List.dropLast_concat]

theorem parseLine_goodLine {e : String × String} (hge : GoodKV e) :
    parseLine (e.1.data ++ '=' :: e.2.data) = some e := by
  unfold parseLine
  rw [chSplit_append_sep hge.2.1, chSplit_no_sep hge.2.2.2]

theorem mapM_parseLine {d : List (String × String)} (hgood : ∀ e ∈ d, GoodKV e) :
    (d.map (fun e => e.1.data ++ '=' :: e.2.data)).mapM parseLine = some d := by
  induction d with
  | nil => rfl
  | cons e d ih =>
    rw [List.map_cons, List.mapM_cons]
    rw [parseLine_goodLine (hgood e (List.mem_cons_self e d)),
      ih (fun x hx => hgood x (List.mem_cons_of_mem _ hx))]
    rfl

theorem dictInsert_append_fresh {d : List (String × String)} {k v : String}
    (h : ∀ e ∈ d, e.1 ≠ k) : dictInsert d k v = d ++ [(k, v)] := by
  unfold dictInsert
  rw [if_neg]
  intro hany
  rw [List.any_eq_true] at hany
  obtain ⟨e, he, hek⟩ := hany
  simp only [decide_eq_true_eq] at hek
  exact h e he hek

theorem foldl_dictInsert_append (d : List (String × String)) :
    ∀ acc : List (String × String),
      ((acc ++ d).map (·.1)).Nodup →
      d.foldl (fun a kv => dictInsert a kv.1 kv.2) acc = acc ++ d := by
  induction d with
  | nil => intro acc _; simp
  | cons e d ih =>
    intro acc hnd
    rw [List.foldl_cons]
    have hfresh : ∀ x ∈ acc, x.1 ≠ e.1 := by
      intro x hx hxe
      have h1 : x.1 ∈ (acc.map (·.1)) := List.mem_map_of_mem _ hx
      have h2 : e.1 ∈ ((e :: d).map (·.1)) := List.mem_map_of_mem _ (List.mem_cons_self e d)
      rw [List.map_append] at hnd
      exact (List.disjoint_of_nodup_append hnd) h1 (hxe ▸ h2)
    rw [dictInsert_append_fresh hfresh]
    have : (acc ++ [e]) ++ d = acc ++ e :: d := by simp
    rw [ih (acc ++ [e]) (by rw [this]; exact hnd)]
    exact this

theorem txt_to_dict_serializeRefs {d : List (String × String)}
    (hnd : (d.map (·.1)).Nodup) (hgood : ∀ e ∈ d, GoodKV e) :
    txt_to_dict (serializeRefs d) = some d := by
  cases d with
  | nil => rfl
  | cons e d' =>
    unfold txt_to_dict
    rw [if_neg]
    · rw [splitlines_serializeRefs hgood, mapM_parseLine hgood]
      simp only [Option.map_some']
      rw [foldl_dictInsert_append _ [] (by rw [List.nil_append]; exact hnd)]
      simp
    · intro hcon
      have : (serializeRefs (e :: d')).data = [] := by rw [hcon]
      rw [serializeRefs_data] at this
      simp [String.data_append] at this

end Wit

namespace Wit

theorem dictGet_map_update_self {d : List (String × String)} {k v : String}
    (h : d.any (fun e => e.1 = k) = true) :
    dictGet (d.map (fun e => if e.1 = k then (k, v) else e)) k = some v := by
  induction d with
  | nil => cases h
  | cons e d ih =>
    rw [List.map_cons]
    by_cases hek : e.1 = k
    · rw [if_pos hek]
      unfold dictGet
      rw [List.find?_cons_of_pos _ (by simp)]
      rfl
    · rw [if_neg hek]
      unfold dictGet at ih ⊢
      rw [List.find?_cons_of_neg _ (by simp [hek])]
      apply ih
      simpa [hek] using h

theorem dictGet_map_update_other {d : List (String × String)} {k v k' : String}
    (hkk : k' ≠ k) :
    dictGet (d.map (fun e => if e.1 = k then (k, v) else e)) k' = dictGet d k' := by
  induction d with
  | nil => rfl
  | cons e d ih =>
    rw [List.map_cons]
    by_cases hek : e.1 = k
    · rw [if_pos hek]
      unfold dictGet at ih ⊢
      rw [List.find?_cons_of_neg _ (by simp; exact fun h => hkk h.symm),
        List.find?_cons_of_neg _ (by simp; intro h; exact hkk ((hek ▸ h : k = k')).symm)]
      exact ih
    · rw [if_neg hek]
      unfold dictGet at ih ⊢
      by_cases hek' : e.1 = k'
      · rw [List.find?_cons_of_pos _ (by simp [hek']), List.find?_cons_of_pos _ (by simp [hek'])]
      · rw [List.find?_cons_of_neg _ (by simp [hek']), List.find?_cons_of_neg _ (by simp [hek'])]
        exact ih

theorem dictGet_dictInsert_self {d : List (String × String)} {k v : String} :
    dictGet (dictInsert d k v) k = some v := by
  unfold dictInsert
  by_cases hany : d.any (fun e => e.1 = k) = true
  · rw [if_pos hany]
    exact dictGet_map_update_self hany
  · rw [if_neg hany]
    unfold dictGet
    rw [List.find?_append]
    have hnone : d.find? (fun e => decide (e.1 = k)) = none := by
      rw [List.find?_eq_none]
      intro e he hdec
      refine hany ?_
      rw [List.any_eq_true]
      exact ⟨e, he, hdec⟩
    rw [hnone, Option.none_or, List.find?_cons_of_pos _ (by simp)]
    rfl

theorem dictGet_dictInsert_other {d : List (String × String)} {k v k' : String}
    (hkk : k' ≠ k) :
    dictGet (dictInsert d k v) k' = dictGet d k' := by
  unfold dictInsert
  by_cases hany : d.any (fun e => e.1 = k) = true
  · rw [if_pos hany]
    exact dictGet_map_update_other hkk
  · rw [if_neg hany]
    unfold dictGet
    rw [List.find?_append]
    cases hf : d.find? (fun e => decide (e.1 = k')) with
    | some e => rfl
    | none =>
      rw [Option.none_or,
        List.find?_cons_of_neg _ (by simp; exact fun h => hkk h.symm)]
      rfl

theorem dictInsert_keys_nodup {d : List (String × String)} {k v : String}
    (h : (d.map (·.1)).Nodup) : ((dictInsert d k v).map (·.1)).Nodup := by
  unfold dictInsert
  by_cases hany : d.any (fun e => e.1 = k) = true
  · rw [if_pos hany]
    have hkeys : (d.map (fun e => if e.1 = k then (k, v) else e)).map (·.1) =
        d.map (·.1) := by
      rw [List.map_map]
      apply List.map_congr_left
      intro e _
      by_cases hek : e.1 = k
      · simp [Function.comp, hek]
      · simp [Function.comp, hek]
    rw [hkeys]
    exact h
  · rw [if_neg hany, List.map_append]
    refine List.Nodup.append h (by simp) ?_
    intro a ha hb
    simp only [List.map_cons, List.map_nil, List.mem_singleton] at hb
    subst hb
    rcases List.mem_map.mp ha with ⟨e, he, hek⟩
    refine hany ?_
    rw [List.any_eq_true]
    exact ⟨e, he, by simp [hek]⟩

theorem dictInsert_forall {P : String × String → Prop} {d : List (String × String)}
    {k v : String} (hd : ∀ e ∈ d, P e) (hkv : P (k, v)) :
    ∀ e ∈ dictInsert d k v, P e := by
  intro e he
  unfold dictInsert at he
  by_cases hany : d.any (fun e => e.1 = k) = true
  · rw [if_pos hany] at he
    rcases List.mem_map.mp he with ⟨x, hx, rfl⟩
    by_cases hxk : x.1 = k
    · rw [if_pos hxk]
      exact hkv
    · rw [if_neg hxk]
      exact hd x hx
  · rw [if_neg hany] at he
    rcases List.mem_append.mp he with h | h
    · exact hd e h
    · rw [List.mem_singleton] at h
      subst h
      exact hkv

theorem serializeRefs_length (d : List (String × String)) :
    (serializeRefs d).length = (d.map (fun e => e.1.length + e.2.length + 2)).sum := by
  induction d with
  | nil => rfl
  | cons e d ih =>
    rw [serializeRefs_cons, List.map_cons, List.sum_cons, ← ih]
    rw [String.length_append, String.length_append, String.length_append,
      String.length_append]
    rw [show ("=" : String).length = 1 from rfl, show ("\n" : String).length = 1 from rfl]
    omega

theorem serializeRefs_dictInsert_length {d : List (String × String)} {k v : String}
    (hv : ∀ e ∈ d, e.2.length = 40) (hvk : v.length = 40) :
    (serializeRefs d).length ≤ (serializeRefs (dictInsert d k v)).length := by
  unfold dictInsert
  by_cases hany : d.any (fun e => e.1 = k) = true
  · rw [if_pos hany]
    apply Nat.le_of_eq
    rw [serializeRefs_length, serializeRefs_length, List.map_map]
    congr 1
    apply List.map_congr_left
    intro e he
    by_cases hek : e.1 = k
    · have h40 : e.2.length = 40 := hv e he
      simp [Function.comp, hek, h40, hvk]
    · simp [Function.comp, hek]
  · rw [if_neg hany, serializeRefs_length, serializeRefs_length, List.map_append,
      List.sum_append]
    exact Nat.le_add_right _ _

theorem rplusWrite_of_le {old new : String} (h : old.length ≤ new.length) :
    rplusWrite old new = new := by
  unfold rplusWrite
  have hdrop : old.data.drop new.data.length = [] := by
    rw [List.drop_eq_nil_iff]
    exact h
  rw [hdrop]
  rw [show String.mk [] = "" from rfl]
  exact String.append_empty new

/-- Under a well-formed store, `edit_references` rewrites the file to the
clean serialization of the updated dict (the `r+` tail is fully covered). -/
theorem edit_references_eq {file : String} {d : List (String × String)}
    {name id : String} (hwf : RefsWF file d) (hid : id.length = 40) :
    edit_references name id file = some (serializeRefs (dictInsert d name id)) := by
  obtain ⟨hparse, hlen, hnd, hgood, hvlen⟩ := hwf
  unfold edit_references
  rw [hparse, Option.map_some']
  congr 1
  apply rplusWrite_of_le
  exact le_trans hlen (serializeRefs_dictInsert_length hvlen hid)

theorem RefsWF_dictInsert {d : List (String × String)} {name id : String}
    (hnd : (d.map (·.1)).Nodup) (hgood : ∀ e ∈ d, GoodKV e)
    (hvlen : ∀ e ∈ d, e.2.length = 40) (hgname : GoodKV (name, id))
    (hid : id.length = 40) :
    RefsWF (serializeRefs (dictInsert d name id)) (dictInsert d name id) := by
  refine ⟨?_, Nat.le_refl _, dictInsert_keys_nodup hnd, dictInsert_forall hgood hgname,
    dictInsert_forall hvlen hid⟩
  exact txt_to_dict_serializeRefs (dictInsert_keys_nodup hnd)
    (dictInsert_forall hgood hgname)

end Wit

namespace Wit

/-! ## History resolver: commit metadata and ancestor walks -/

/-- Per-commit metadata store: commit id ↦ the `parent=` field that
`gen_commit_txt` wrote (`"None"` for a root commit, one id, or two ids
joined by a comma for a merge commit). -/
abbrev ParentStore := List (String × String)

/-- Raw `parent` field of a commit; a missing commit text file reads as the
empty dict, whose `.get('parent', '')` is `''`. -/
def rawParent (store : ParentStore) (c : String) : String :=
  match store.find? (fun e => e.1 = c) with
  | some e => e.2
  | none => ""

/-- Value returned by `wit.get_parent_commit`: a plain string, or the list
produced by `parent.split(',')`. -/
inductive ParentVal where
  | single (s : String)
  | multi (l : List String)
deriving DecidableEq

/-- Python `parent.split(',')`. -/
def commaSplit (s : String) : List String := (chSplit ',' s.data).map String.mk

/-- `wit.get_parent_commit` (lines 505–515). -/
def get_parent_commit (store : ParentStore) (c : String) : ParentVal :=
  if c = "" then ParentVal.single "" else
    let p := rawParent store c
    if p.data.contains ',' then ParentVal.multi (commaSplit p) else ParentVal.single p

/-- The loop of `wit.get_all_parent_commits` with `flat=True` (lines
518–531): a single parent is yielded and the walk continues from it; a
parent *list* yields its first two entries, after which
`get_parent_commit` is called on the list itself — the file named after
the list's `repr` never exists, so the next parent is `''` and the loop
ends.  `fuel` bounds the loop; on the acyclic stores the program builds,
`store.length + 1` steps always suffice. -/
def flatWalk (store : ParentStore) : ParentVal → Nat → List String
  | _, 0 => []
  | ParentVal.single p, fuel + 1 =>
    if p = "" ∨ p = "None" then []
    else p :: flatWalk store (get_parent_commit store p) fuel
  | ParentVal.multi l, _ + 1 =>
    match l with
    | p0 :: p1 :: _ => [p0, p1]
    | _ => []

/-- `wit.get_all_parent_commits(wit_root, c, flat=True)`. -/
def get_all_parent_commits_flat (store : ParentStore) (c : String) (fuel : Nat) :
    List String :=
  c :: flatWalk store (get_parent_commit store c) fuel

/-- `wit.get_common_parent` (lines 474–483): `itertools.product` pairs the
two flattened ancestor lists, scanning the first list in order, and the
first pair of equal entries wins; falling off the loop returns `None`. -/
def get_common_parent (store : ParentStore) (fuel : Nat) (a b : String) :
    Option String :=
  (get_all_parent_commits_flat store a fuel).find?
    (fun x => (get_all_parent_commits_flat store b fuel).contains x)

/-- Modelled from the spec (§4.5), for comparison with the code's walk:
"a `flatten` mode additionally yields *both* parents of any merge commit
encountered, still walking only along first-parents beyond that point". -/
def specFlatWalk (store : ParentStore) : ParentVal → Nat → List String
  | _, 0 => []
  | ParentVal.single p, fuel + 1 =>
    if p = "" ∨ p = "None" then []
    else p :: specFlatWalk store (get_parent_commit store p) fuel
  | ParentVal.multi l, fuel + 1 =>
    match l with
    | p0 :: p1 :: _ => p0 :: p1 :: specFlatWalk store (get_parent_commit store p0) fuel
    | _ => []

/-- The spec's flatten enumeration (§4.5), continuing past merge commits. -/
def specFlattenAncestors (store : ParentStore) (c : String) (fuel : Nat) :
    List String :=
  c :: specFlatWalk store (get_parent_commit store c) fuel

/-- The parents of a commit in the plain graph sense. -/
def parentIds (store : ParentStore) (c : String) : List String :=
  match get_parent_commit store c with
  | ParentVal.single p => if p = "" ∨ p = "None" then [] else [p]
  | ParentVal.multi l => l

/-- Every commit reachable from `c` through parent links within `fuel`
steps: the true ancestor relation, used to state "shared ancestor". -/
def ancestorsWithin (store : ParentStore) : Nat → String → List String
  | 0, c => [c]
  | fuel + 1, c => c :: (parentIds store c).flatMap (ancestorsWithin store fuel)

/-- A complete, merge-free first-parent chain from `c`: exactly the list
the flattened walk yields when it ends at a root (or absent parent) without
meeting a merge commit or running out of fuel. -/
inductive Chain (store : ParentStore) : String → List String → Prop where
  | stop (c : String)
      (h : get_parent_commit store c = ParentVal.single "" ∨
        get_parent_commit store c = ParentVal.single "None") : Chain store c [c]
  | step (c p : String) (l : List String)
      (hp : get_parent_commit store c = ParentVal.single p)
      (hne : ¬(p = "" ∨ p = "None"))
      (hc : Chain store p l) : Chain store c (c :: l)

theorem chain_ne_nil {store : ParentStore} {c : String} {l : List String}
    (h : Chain store c l) : l ≠ [] := by
  cases h <;> simp

theorem flatten_eq_of_chain {store : ParentStore} {c : String} {l : List String}
    (h : Chain store c l) :
    ∀ fuel, l.length ≤ fuel + 1 → get_all_parent_commits_flat store c fuel = l := by
  induction h with
  | stop c hstop =>
    intro fuel _
    unfold get_all_parent_commits_flat
    rcases hstop with h | h <;> rw [h] <;> cases fuel with
    | zero => rfl
    | succ fuel => simp [flatWalk]
  | step c p l hp hne hc ih =>
    intro fuel hlen
    cases fuel with
    | zero =>
      exfalso
      simp only [List.length_cons] at hlen
      have : l.length = 0 := by omega
      exact chain_ne_nil hc (List.eq_nil_of_length_eq_zero this)
    | succ fuel =>
      unfold get_all_parent_commits_flat
      rw [hp]
      show c :: flatWalk store (ParentVal.single p) (fuel + 1) = c :: l
      unfold flatWalk
      rw [if_neg hne]
      have := ih fuel (by simp only [List.length_cons] at hlen; omega)
      unfold get_all_parent_commits_flat at this
      rw [show p :: flatWalk store (get_parent_commit store p) fuel = l from this]

theorem chain_suffix_at {store : ParentStore} {c : String} {l l₁ l₂ : List String}
    {u : String} (h : Chain store c l) (heq : l = l₁ ++ u :: l₂) :
    Chain store u (u :: l₂) := by
  induction h generalizing l₁ with
  | stop c hstop =>
    cases l₁ with
    | nil =>
      simp only [List.nil_append] at heq
      injection heq with h1 h2
      subst h1
      subst h2
      exact Chain.stop _ hstop
    | cons x xs =>
      simp only [List.cons_append] at heq
      injection heq with h1 h2
      exact absurd h2.symm (by simp)
  | step c p l hp hne hc ih =>
    cases l₁ with
    | nil =>
      simp only [List.nil_append] at heq
      injection heq with h1 h2
      subst h1
      subst h2
      exact Chain.step _ p _ hp hne hc
    | cons x xs =>
      simp only [List.cons_append] at heq
      injection heq with h1 h2
      exact ih h2

theorem chain_unique {store : ParentStore} {c : String} {l₁ l₂ : List String}
    (h₁ : Chain store c l₁) (h₂ : Chain store c l₂) : l₁ = l₂ := by
  induction h₁ generalizing l₂ with
  | stop c hstop =>
    cases h₂ with
    | stop => rfl
    | step c p l hp hne hc =>
      rcases hstop with h | h
      · rw [hp] at h
        injection h with h
        exact absurd (Or.inl h) hne
      · rw [hp] at h
        injection h with h
        exact absurd (Or.inr h) hne
  | step c p l hp hne hc ih =>
    cases h₂ with
    | stop c hstop =>
      rcases hstop with h | h
      · rw [hp] at h
        injection h with h
        exact absurd (Or.inl h) hne
      · rw [hp] at h
        injection h with h
        exact absurd (Or.inr h) hne
    | step c p' l' hp' hne' hc' =>
      rw [hp] at hp'
      injection hp' with hpp
      subst hpp
      rw [ih hc']

theorem find?_eq_some_split {α : Type} {p : α → Bool} {l : List α} {u : α}
    (h : l.find? p = some u) :
    ∃ l₁ l₂, l = l₁ ++ u :: l₂ ∧ (∀ x ∈ l₁, p x = false) ∧ p u = true := by
  induction l with
  | nil => cases h
  | cons x l ih =>
    by_cases hx : p x = true
    · rw [List.find?_cons_of_pos _ hx] at h
      injection h with h
      subst h
      exact ⟨[], l, rfl, by simp, hx⟩
    · rw [List.find?_cons_of_neg _ (by simp [hx])] at h
      obtain ⟨l₁, l₂, rfl, h1, h2⟩ := ih h
      refine ⟨x :: l₁, l₂, rfl, ?_, h2⟩
      intro y hy
      rcases List.mem_cons.mp hy with rfl | hy'
      · cases hpx : p y
        · rfl
        · exact absurd hpx hx
      · exact h1 y hy'

end Wit

namespace Wit

/-- On complete merge-free chains, the first-common-element search of
`get_common_parent` is symmetric. -/
theorem chain_find_symm {store : ParentStore} {a b : String} {A B : List String}
    (hA : Chain store a A) (hB : Chain store b B) :
    A.find? (fun x => B.contains x) = B.find? (fun x => A.contains x) := by
  cases hfa : A.find? (fun x => B.contains x) with
  | none =>
    cases hfb : B.find? (fun x => A.contains x) with
    | none => rfl
    | some v =>
      exfalso
      have hvB : v ∈ B := List.mem_of_find?_eq_some hfb
      have hvA : v ∈ A := contains_iff_mem.mp (List.find?_some hfb)
      rw [List.find?_eq_none] at hfa
      exact hfa v hvA (contains_iff_mem.mpr hvB)
  | some u =>
    cases hfb : B.find? (fun x => A.contains x) with
    | none =>
      exfalso
      have huA : u ∈ A := List.mem_of_find?_eq_some hfa
      have huB : u ∈ B := contains_iff_mem.mp (List.find?_some hfa)
      rw [List.find?_eq_none] at hfb
      exact hfb u huB (contains_iff_mem.mpr huA)
    | some v =>
      congr 1
      obtain ⟨A₁, A₂, hAeq, hA₁, -⟩ := find?_eq_some_split hfa
      obtain ⟨B₁, B₂, hBeq, hB₁, -⟩ := find?_eq_some_split hfb
      have hCU : Chain store u (u :: A₂) := chain_suffix_at hA hAeq
      have hCV : Chain store v (v :: B₂) := chain_suffix_at hB hBeq
      have hvA : v ∈ A := contains_iff_mem.mp (List.find?_some hfb)
      have huB : u ∈ B := contains_iff_mem.mp (List.find?_some hfa)
      have hvB : v ∈ B := List.mem_of_find?_eq_some hfb
      have huA : u ∈ A := List.mem_of_find?_eq_some hfa
      have hvCU : v ∈ u :: A₂ := by
        rw [hAeq] at hvA
        rcases List.mem_append.mp hvA with h | h
        · exact absurd (contains_iff_mem.mpr hvB) (by rw [hA₁ v h]; simp)
        · exact h
      have huCV : u ∈ v :: B₂ := by
        rw [hBeq] at huB
        rcases List.mem_append.mp huB with h | h
        · exact absurd (contains_iff_mem.mpr huA) (by rw [hB₁ u h]; simp)
        · exact h
      obtain ⟨X, Y, hXY⟩ := List.append_of_mem hvCU
      have hYB : v :: Y = v :: B₂ := chain_unique (chain_suffix_at hCU hXY) hCV
      obtain ⟨W, Z, hWZ⟩ := List.append_of_mem huCV
      have hZA : u :: Z = u :: A₂ := chain_unique (chain_suffix_at hCV hWZ) hCU
      rw [hYB] at hXY
      rw [hZA] at hWZ
      have hXY' := hXY
      rw [hWZ] at hXY'
      have hlen := congrArg List.length hXY'
      simp only [List.length_append, List.length_cons] at hlen
      have hX : X = [] := List.eq_nil_of_length_eq_zero (by omega)
      subst hX
      simp only [List.nil_append, List.cons.injEq] at hXY
      exact hXY.1

theorem get_common_parent_symm_of_chains {store : ParentStore} {fuel : Nat}
    {a b : String} {A B : List String}
    (hA : Chain store a A) (hB : Chain store b B)
    (hfa : A.length ≤ fuel + 1) (hfb : B.length ≤ fuel + 1) :
    get_common_parent store fuel a b = get_common_parent store fuel b a := by
  unfold get_common_parent
  rw [flatten_eq_of_chain hA fuel hfa, flatten_eq_of_chain hB fuel hfb]
  exact chain_find_symm hA hB

theorem get_common_parent_eq_self_iff {store : ParentStore} {fuel : Nat}
    {a b : String} :
    get_common_parent store fuel a b = some a ↔
      a ∈ get_all_parent_commits_flat store b fuel := by
  constructor
  · intro h
    exact contains_iff_mem.mp (List.find?_some h)
  · intro h
    have hpos : (fun x => (get_all_parent_commits_flat store b fuel).contains x) a = true :=
      contains_iff_mem.mpr h
    exact List.find?_cons_of_pos _ hpos

theorem flatWalk_isPrefixOf_specFlatWalk (store : ParentStore) :
    ∀ (fuel : Nat) (pv : ParentVal),
      (flatWalk store pv fuel).isPrefixOf (specFlatWalk store pv fuel) = true := by
  intro fuel
  induction fuel with
  | zero => intro pv; cases pv <;> rfl
  | succ fuel ih =>
    intro pv
    cases pv with
    | single p =>
      unfold flatWalk specFlatWalk
      by_cases hp : p = "" ∨ p = "None"
      · rw [if_pos hp, if_pos hp]
        rfl
      · rw [if_neg hp, if_neg hp]
        exact isPrefixOf_cons_cons.mpr ⟨rfl, ih _⟩
    | multi l =>
      unfold flatWalk specFlatWalk
      cases l with
      | nil => rfl
      | cons p0 t =>
        cases t with
        | nil => rfl
        | cons p1 t2 =>
          exact isPrefixOf_cons_cons.mpr
            ⟨rfl, isPrefixOf_cons_cons.mpr ⟨rfl, nil_isPrefixOf_any⟩⟩

theorem codeFlatten_isPrefixOf_specFlatten (store : ParentStore) (c : String)
    (fuel : Nat) :
    (get_all_parent_commits_flat store c fuel).isPrefixOf
      (specFlattenAncestors store c fuel) = true := by
  unfold get_all_parent_commits_flat specFlattenAncestors
  exact isPrefixOf_cons_cons.mpr ⟨rfl, flatWalk_isPrefixOf_specFlatWalk store fuel _⟩

end Wit

namespace Wit

/-! ## The repository state and the engine's operations -/

/-- Errors surfaced by the operations under study.  `internal` stands for
any Python exception that is not one of `wit`'s own domain errors
(`KeyError`, `ValueError`, `TypeError`, `FileNotFoundError`, ...), all of
which the top-level handler logs without distinguishing. -/
inductive WitError where
  | noChanges
  | nonExistentCommitId
  | unableToCheckout
  | branchExists
  | invalidMerge
  | internal
deriving DecidableEq

/-- On-disk state of a repository: the working tree (excluding `.wit`),
the staging area, the snapshot store (`images/<id>/`), the commit metadata
(the `parent=` field of each `images/<id>.txt`; the `date=`/`message=`
fields are read by no operation under study), the raw `references.txt`
content (`""` when the file is absent) and the `activated.txt` content. -/
structure WitState where
  working : Tree
  staging : Tree
  images : List (String × Tree)
  parents : ParentStore
  refsFile : String
  activated : String
deriving DecidableEq

/-- `images/<id>` lookup. -/
def lookupImage (images : List (String × Tree)) (c : String) : Option Tree :=
  (images.find? (fun e => e.1 = c)).map (·.2)

/-- `wit.init` (lines 75–90) on a fresh directory holding `working`. -/
def initState (working : Tree) : WitState :=
  { working := working, staging := [], images := [], parents := [],
    refsFile := "", activated := "master" }

/-- Result of an operation: the state left on disk, paired with the error
raised, if any (`none` = the operation ran to completion). -/
abbrev WitResult := WitState × Option WitError

/-- `wit.read_references` (lines 567–568). -/
def read_references (st : WitState) : Option (List (String × String)) :=
  txt_to_dict st.refsFile

/-- Status report of `wit.get_status`. -/
structure StatusInfo where
  toBeCommitted : List String
  notStaged : List String
  untracked : List String
deriving DecidableEq

/-- `wit.get_status` (lines 200–211): `references['HEAD']` raises on a
missing key (including the no-commit state), then the three
`dircmp`-based classifiers run against HEAD's snapshot, the staging area
and the working tree. -/
def get_status (st : WitState) : Except WitError StatusInfo :=
  match read_references st with
  | none => .error .internal
  | some d =>
    match dictGet d "HEAD" with
    | none => .error .internal
    | some head =>
      match lookupImage st.images head with
      | none => .error .internal
      | some headTree =>
        .ok { toBeCommitted := get_changes_to_be_committed st.staging headTree,
              notStaged := get_changes_not_staged st.working st.staging,
              untracked := get_untracked st.working st.staging }

/-- `wit.gen_references` (lines 582–599): with existing references, `HEAD`
advances to the new id and the activated branch advances exactly when it
equalled `HEAD`; with no references yet, a fresh two-line file is
written.  `ref[active_branch]` raises `KeyError` when the activated name
(possibly `''` after a detached checkout) is not a reference. -/
def gen_references (commit_id refsFile activated : String) :
    Except WitError String :=
  match txt_to_dict refsFile with
  | none => .error .internal
  | some ref =>
    if ref = [] then
      .ok ("HEAD=" ++ commit_id ++ "\n" ++ activated ++ "=" ++ commit_id ++ "\n")
    else
      match dictGet ref "HEAD", dictGet ref activated with
      | some currHead, some activeId =>
        match edit_references "HEAD" commit_id refsFile with
        | none => .error .internal
        | some f1 =>
          match edit_references activated
              (if currHead = activeId then commit_id else activeId) f1 with
          | none => .error .internal
          | some f2 => .ok f2
      | _, _ => .error .internal

/-- `wit.commit` (lines 182–197) together with `wit.gen_commit_txt`
(lines 550–564).  The random `gen_hash` output is the `commit_id`
parameter.  With no references yet, `get_head_commit` is `''` and the
diff runs against the images directory, which is empty in that state. -/
def commit (commit_id : String) (secondParent : Option String) (st : WitState) :
    WitResult :=
  match read_references st with
  | none => (st, some .internal)
  | some ref =>
    match (if ref = [] then some "" else dictGet ref "HEAD") with
    | none => (st, some .internal)
    | some head =>
      match (if head = "" then some ([] : Tree) else lookupImage st.images head) with
      | none => (st, some .internal)
      | some headTree =>
        if get_changes_to_be_committed st.staging headTree = [] then
          (st, some .noChanges)
        else if (lookupImage st.images commit_id).isSome then
          (st, some .internal)
        else
          let st1 := { st with images := st.images ++ [(commit_id, st.staging)] }
          if ref = [] ∧ secondParent.isSome then
            (st1, some .internal)
          else
            let parentField :=
              (if ref = [] then "None" else head) ++
                (match secondParent with
                 | some b => "," ++ b
                 | none => "")
            let st2 := { st1 with parents := st.parents ++ [(commit_id, parentField)] }
            match gen_references commit_id st.refsFile st.activated with
            | .error e => (st2, some e)
            | .ok f => ({ st2 with refsFile := f }, none)

/-- Branch-name resolution of `wit.checkout` (lines 231–239): an argument
whose length is not 40 is looked up as a branch name (an unknown name
gives Python `None`, which then fails the `find_commit_by_id` membership
test, surfacing `NonExistentCommitIdError`); an argument of length
exactly 40 is used as a raw commit id and is never looked up as a
branch. -/
def resolveCheckoutArg (arg : String) (st : WitState) :
    Except WitError (String × String) :=
  if arg.length ≠ 40 then
    match read_references st with
    | none => .error .internal
    | some ref =>
      match dictGet ref arg with
      | none => .error .nonExistentCommitId
      | some cid => .ok (arg, cid)
  else .ok ("", arg)

/-- `wit.checkout` (lines 231–263). -/
def checkout (arg : String) (st : WitState) : WitResult :=
  match resolveCheckoutArg arg st with
  | .error e => (st, some e)
  | .ok (branchName, cid) =>
    match lookupImage st.images cid with
    | none => (st, some .nonExistentCommitId)
    | some target =>
      match get_status st with
      | .error e => (st, some e)
      | .ok stat =>
        if stat.toBeCommitted ≠ [] ∨ stat.notStaged ≠ [] then
          (st, some .unableToCheckout)
        else
          let working' := overrideTree st.working
            (target.filter (fun e => !(e.1.any (fun c => stat.untracked.contains c))))
          match edit_references "HEAD" cid st.refsFile with
          | none => ({ st with working := working', staging := target }, some .internal)
          | some f =>
            ({ st with
                working := working'
                staging := target
                refsFile := f
                activated := branchName }, none)

/-- `wit.branch` (lines 299–308): append `name=HEAD` — with no trailing
newline — unless the name is already a reference. -/
def branch (name : String) (st : WitState) : WitResult :=
  match read_references st with
  | none => (st, some .internal)
  | some ref =>
    if dictMem ref name then (st, some .branchExists)
    else
      match dictGet ref "HEAD" with
      | none => (st, some .internal)
      | some h =>
        ({ st with refsFile := st.refsFile ++ name ++ "=" ++ h }, none)

/-- `wit.add` (lines 167–179): a single file is copied (overwriting); a
directory is copied whole by `copytree`, but if the destination already
exists the `FileExistsError` is swallowed with an "already staged" log and
nothing is copied; a missing path raises. -/
def add (p : Path) (st : WitState) : WitResult :=
  match lookupPath st.working p with
  | some content =>
    ({ st with staging := overrideTree st.staging [(p, content)] }, none)
  | none =>
    if st.working.any (fun e => p.isPrefixOf e.1 ∧ p ≠ e.1) then
      if st.staging.any (fun e => p.isPrefixOf e.1) then
        (st, none)
      else
        ({ st with staging :=
            st.staging ++ st.working.filter (fun e => p.isPrefixOf e.1) }, none)
    else (st, some .internal)

/-- The files `merge` copies into the staging area
(`copytree(images/b, staging_area, ignore=include_patterns(*changes),
dirs_exist_ok=True)`, lines 312–319 and 344–345): directories are always
traversed, and a file is copied exactly when its base name matches one of
the patterns (`fnmatch` with the literal changed names; string equality
for names without glob metacharacters). -/
def mergeCopiedTree (bTree : Tree) (patterns : List String) : Tree :=
  bTree.filter (fun e =>
    match e.1.getLast? with
    | some n => patterns.contains n
    | none => false)

/-- `wit.merge` (lines 322–347).  The merge commit's id is the `commit_id`
parameter (drawn by `gen_hash` inside the nested `commit` call). -/
def merge (branchToMerge : String) (commit_id : String) (st : WitState) :
    WitResult :=
  match read_references st with
  | none => (st, some .internal)
  | some ref =>
    let activeCommit := dictGet ref st.activated
    let otherCommit := dictGet ref branchToMerge
    if activeCommit = otherCommit then (st, some .invalidMerge)
    else
      match activeCommit, otherCommit with
      | some a, some b =>
        match get_common_parent st.parents (st.parents.length + 1) a b with
        | none => (st, some .internal)
        | some base =>
          match lookupImage st.images base, lookupImage st.images b,
              lookupImage st.images a with
          | some baseTree, some bTree, some aTree =>
            let changedInB :=
              get_changes (changesFuel baseTree bTree) baseTree bTree false true true
            let dirty :=
              get_changes (changesFuel st.staging aTree) st.staging aTree true true true
            if dirty ≠ [] then
              (st, some .invalidMerge)
            else
              commit commit_id (some b)
                { st with staging :=
                    overrideTree st.staging (mergeCopiedTree bTree changedInB) }
          | _, _, _ => (st, some .internal)
      | _, _ => (st, some .internal)

/-- `wit.gen_hash` (lines 602–605): 40 characters drawn from
`string.ascii_letters[:6] + string.digits`; the random draw is the `pick`
function. -/
def hashAlphabet : List Char :=
  ['a', 'b', 'c', 'd', 'e', 'f', '0', '1', '2', '3', '4', '5', '6', '7', '8', '9']

def gen_hash (pick : Nat → Nat) : String :=
  String.mk ((List.range 40).map (fun i => hashAlphabet.getD (pick i % 16) 'a'))

end Wit

namespace Wit

/-! ## Concrete repository scenarios used by the claim theorems -/

/-- A 40-character identifier of one repeated character, as `gen_hash`
could draw it. -/
def cid40 (c : Char) : String := String.mk (List.replicate 40 c)

theorem mem_of_head?_eq_some {p : Path} {n : String} (h : p.head? = some n) :
    n ∈ p := by
  cases p with
  | nil => cases h
  | cons a rest =>
    simp only [List.head?] at h
    injection h with h
    rw [h]
    exact List.mem_cons_self _ _

/-- Every entry of `get_changes` is a bare name occurring as a component of
some involved path — never a repository-relative path. -/
theorem get_changes_mem_component :
    ∀ (fuel : Nat) (l r : Tree) (lo ro df : Bool) (n : String),
      n ∈ get_changes fuel l r lo ro df →
      ∃ p, (p ∈ pathsOf l ∨ p ∈ pathsOf r) ∧ n ∈ p := by
  intro fuel
  induction fuel with
  | zero =>
    intro l r lo ro df n h
    cases h
  | succ fuel ih =>
    intro l r lo ro df n h
    rw [get_changes_succ] at h
    have fromNamesL : n ∈ names l → ∃ p, (p ∈ pathsOf l ∨ p ∈ pathsOf r) ∧ n ∈ p := by
      intro hn
      obtain ⟨p, hp, hh⟩ := mem_names.mp hn
      exact ⟨p, Or.inl hp, mem_of_head?_eq_some hh⟩
    have fromNamesR : n ∈ names r → ∃ p, (p ∈ pathsOf l ∨ p ∈ pathsOf r) ∧ n ∈ p := by
      intro hn
      obtain ⟨p, hp, hh⟩ := mem_names.mp hn
      exact ⟨p, Or.inr hp, mem_of_head?_eq_some hh⟩
    rcases List.mem_append.mp h with h | h
    · rcases List.mem_append.mp h with h | h
      · rcases List.mem_append.mp h with h | h
        · cases df with
          | false => cases h
          | true => exact fromNamesL (List.mem_of_mem_filter h)
        · cases lo with
          | false => cases h
          | true => exact fromNamesL (List.mem_of_mem_filter h)
      · cases ro with
        | false => cases h
        | true => exact fromNamesR (List.mem_of_mem_filter h)
    · rcases List.mem_flatMap.mp h with ⟨m, hm, hrec⟩
      obtain ⟨p', hside, hnp'⟩ := ih (subtree l m) (subtree r m) lo ro df n hrec
      rcases hside with hs | hs
      · exact ⟨m :: p', Or.inl (mem_pathsOf_subtree.mp hs).1, List.mem_cons_of_mem _ hnp'⟩
      · exact ⟨m :: p', Or.inr (mem_pathsOf_subtree.mp hs).1, List.mem_cons_of_mem _ hnp'⟩

/-! ### C8 scenario: two consecutive branch creations -/

def c8id : String := cid40 'a'
def c8s0 : WitState := initState [(["f.txt"], "hello")]
def c8s1 : WitState := (add ["f.txt"] c8s0).1
def c8s2 : WitState := (commit c8id none c8s1).1
def c8s3 : WitState := (branch "b1" c8s2).1
def c8s4 : WitState := (branch "b2" c8s3).1

/-- C8: after `init; add f.txt; commit; branch b1; branch b2` — every
operation completing without error — the reference file ends in the line
`b1=<id>b2=<id>` (the `branch` append writes no newline), so reading the
reference set raises `ValueError` and neither `b1` nor `b2` maps to a
commit of the snapshot store: the claimed invariant is broken by the code. -/
theorem C8_two_branches_corrupt_references :
    (add ["f.txt"] c8s0).2 = none ∧
    (commit c8id none c8s1).2 = none ∧
    (branch "b1" c8s2).2 = none ∧
    (branch "b2" c8s3).2 = none ∧
    c8s4.refsFile =
      "HEAD=" ++ c8id ++ "\nmaster=" ++ c8id ++ "\nb1=" ++ c8id ++ "b2=" ++ c8id ∧
    txt_to_dict c8s4.refsFile = none ∧
    txt_to_dict c8s3.refsFile =
      some [("HEAD", c8id), ("master", c8id), ("b1", c8id)] := by
  set_option maxRecDepth 8192 in decide

/-! ### C9: identifier shape and checkout's length-based classification -/

theorem hashAlphabet_getD_mem (n : Nat) :
    hashAlphabet.getD (n % 16) 'a' ∈ hashAlphabet := by
  have h : n % 16 < hashAlphabet.length := by
    have h16 : n % 16 < 16 := Nat.mod_lt _ (by decide)
    simpa [hashAlphabet] using h16
  rw [List.getD_eq_getElem _ _ h]
  exact List.getElem_mem h

/-- C9: `gen_hash` always yields 40 characters over `abcdef0123456789`;
`checkout` classifies purely by length — a 40-character argument is used as
a raw commit id and never resolved as a branch (so a 40-character branch
name cannot be checked out by name), and any other argument is resolved
only through the reference set. -/
theorem C9_hash_shape_and_checkout_resolution :
    (∀ pick : Nat → Nat, (gen_hash pick).length = 40 ∧
      ∀ c ∈ (gen_hash pick).data, c ∈ hashAlphabet) ∧
    (∀ (st : WitState) (name : String), name.length = 40 →
      resolveCheckoutArg name st = Except.ok ("", name)) ∧
    (∀ (st : WitState) (name : String), name.length = 40 →
      (lookupImage st.images name).isNone = true →
      checkout name st = (st, some WitError.nonExistentCommitId)) ∧
    (∀ (st : WitState) (name : String) (d : List (String × String)),
      name.length ≠ 40 → read_references st = some d →
      resolveCheckoutArg name st =
        (match dictGet d name with
         | some cid => Except.ok (name, cid)
         | none => Except.error WitError.nonExistentCommitId)) := by
  refine ⟨?_, ?_, ?_, ?_⟩
  · intro pick
    constructor
    · show ((List.range 40).map _).length = 40
      rw [List.length_map, List.length_range]
    · intro c hc
      rcases List.mem_map.mp hc with ⟨i, -, rfl⟩
      exact hashAlphabet_getD_mem (pick i)
  · intro st name h40
    unfold resolveCheckoutArg
    rw [if_neg (not_not_intro h40)]
  · intro st name h40 hnone
    unfold checkout resolveCheckoutArg
    rw [if_neg (not_not_intro h40)]
    rw [Option.isNone_iff_eq_none] at hnone
    simp only [hnone]
  · intro st name d h40 hd
    unfold resolveCheckoutArg
    rw [if_pos h40, hd]
    cases hdg : dictGet d name with
    | none => simp [hdg]
    | some cid => simp [hdg]

def c9w : WitState := initState []

theorem C9_witness :
    (gen_hash (fun _ => 0)).length = 40 ∧
    resolveCheckoutArg (cid40 'a') c9w = Except.ok ("", cid40 'a') ∧
    checkout (cid40 'a') c9w = (c9w, some WitError.nonExistentCommitId) := by
  refine ⟨(C9_hash_shape_and_checkout_resolution.1 (fun _ => 0)).1,
    C9_hash_shape_and_checkout_resolution.2.1 c9w (cid40 'a') (by decide),
    C9_hash_shape_and_checkout_resolution.2.2.1 c9w (cid40 'a') (by decide) (by decide)⟩

end Wit

namespace Wit

/-! ### C7: the flattened walk stops at the first merge commit -/

def c7w : String := cid40 '0'
def c7x : String := cid40 '1'
def c7y : String := cid40 '2'
def c7m : String := cid40 '3'
def c7c : String := cid40 '4'

def c7store : ParentStore :=
  [(c7w, "None"), (c7x, c7w), (c7y, c7w), (c7m, c7x ++ "," ++ c7y), (c7c, c7m)]

/-- C7 counterexample: in a history `c → m(merge of x, y) → x → w`, the
flattened enumeration of `c` is exactly `[c, m, x, y]`: it yields both
parents of the merge `m` but then *terminates*, so the first-parent
ancestor `w` (the parent of `x`) never appears, although the spec-described
walk continues and does reach `w`. -/
theorem C7_counterexample :
    get_all_parent_commits_flat c7store c7c 10 = [c7c, c7m, c7x, c7y] ∧
    get_parent_commit c7store c7x = ParentVal.single c7w ∧
    ¬(c7w = "" ∨ c7w = "None") ∧
    c7w ∉ get_all_parent_commits_flat c7store c7c 10 ∧
    c7w ∈ specFlattenAncestors c7store c7c 10 := by
  set_option maxRecDepth 8192 in decide

/-- C7 amended: the flattened enumeration follows first parents until the
first merge commit, yields that merge's two parents, and terminates there;
its output is always a prefix of the enumeration the spec describes (which
keeps walking along first parents past the merge). -/
theorem C7_amended_flatten_stops_at_first_merge (store : ParentStore) :
    (∀ (c : String) (fuel : Nat),
      (get_all_parent_commits_flat store c fuel).isPrefixOf
        (specFlattenAncestors store c fuel) = true) ∧
    (∀ (p0 p1 : String) (rest : List String) (fuel : Nat),
      flatWalk store (ParentVal.multi (p0 :: p1 :: rest)) (fuel + 1) = [p0, p1]) :=
  ⟨fun c fuel => codeFlatten_isPrefixOf_specFlatten store c fuel,
    fun _ _ _ _ => rfl⟩

/-! ### C6: common-ancestor search -/

def c6p : String := cid40 '5'
def c6q : String := cid40 '6'
def c6m1 : String := cid40 '7'
def c6m2 : String := cid40 '8'
def c6a : String := cid40 '9'
def c6b : String := cid40 'b'

/-- Two oppositely-ordered merge commits of the roots `p` and `q`, with one
child each.  Reachable by merging two branches into each other from the two
sides. -/
def c6store : ParentStore :=
  [(c6p, "None"), (c6q, "None"), (c6m1, c6p ++ "," ++ c6q),
   (c6m2, c6q ++ "," ++ c6p), (c6a, c6m1), (c6b, c6m2)]

def c6r : String := cid40 'c'
def c6x : String := cid40 'd'
def c6y : String := cid40 'e'
def c6m : String := cid40 'f'
def c6d : String := cid40 '1'

/-- A root `r`, two children, their merge `m`, and a child `b` of `m`. -/
def c6store2 : ParentStore :=
  [(c6r, "None"), (c6x, c6r), (c6y, c6r), (c6m, c6x ++ "," ++ c6y), (c6d, c6m)]

/-- C6 counterexample: `a` and `b` share the ancestors `p` and `q`, yet
`common_ancestor(a, b) = p` while `common_ancestor(b, a) = q` (symmetry
fails); and although `b` descends from the root `r` through a merge,
`common_ancestor(r, b)` is `None`, not `r` (the descendant property fails
too). -/
theorem C6_counterexample :
    (c6p ∈ ancestorsWithin c6store 10 c6a ∧ c6p ∈ ancestorsWithin c6store 10 c6b) ∧
    get_common_parent c6store 7 c6a c6b = some c6p ∧
    get_common_parent c6store 7 c6b c6a = some c6q ∧
    c6p ≠ c6q ∧
    c6r ∈ ancestorsWithin c6store2 10 c6d ∧
    get_common_parent c6store2 6 c6r c6d = none := by
  set_option maxRecDepth 8192 in decide

/-- C6 amended: over complete merge-free first-parent chains the
common-ancestor search is symmetric, and — unconditionally —
`common_ancestor(a, b) = a` exactly when `a` occurs in `b`'s flattened
ancestor enumeration (in particular whenever `b` reaches `a` by
first-parent steps crossing no merge commit). -/
theorem C6_amended_symmetric_on_merge_free_chains (store : ParentStore)
    (fuel : Nat) (a b : String) (A B : List String)
    (hA : Chain store a A) (hB : Chain store b B)
    (hfA : A.length ≤ fuel + 1) (hfB : B.length ≤ fuel + 1) :
    get_common_parent store fuel a b = get_common_parent store fuel b a ∧
    (get_common_parent store fuel a b = some a ↔
      a ∈ get_all_parent_commits_flat store b fuel) :=
  ⟨get_common_parent_symm_of_chains hA hB hfA hfB, get_common_parent_eq_self_iff⟩

def c6wr : String := cid40 '2'
def c6wx : String := cid40 '3'
def c6wstore : ParentStore := [(c6wr, "None"), (c6wx, c6wr)]

theorem C6_amended_witness :
    get_common_parent c6wstore 3 c6wx c6wr = get_common_parent c6wstore 3 c6wr c6wx ∧
    (get_common_parent c6wstore 3 c6wx c6wr = some c6wx ↔
      c6wx ∈ get_all_parent_commits_flat c6wstore c6wr 3) :=
  C6_amended_symmetric_on_merge_free_chains c6wstore 3 c6wx c6wr
    [c6wx, c6wr] [c6wr]
    (Chain.step _ _ _ (by set_option maxRecDepth 8192 in decide)
      (by decide) (Chain.stop _ (by set_option maxRecDepth 8192 in decide)))
    (Chain.stop _ (by set_option maxRecDepth 8192 in decide))
    (by decide) (by decide)

/-! ### C1 counterexample scenario -/

def c1h : String := cid40 'a'

/-- A repository whose HEAD snapshot holds `f` while the staging area is
empty: the only structural difference is a removal relative to HEAD. -/
def c1st : WitState :=
  { working := [], staging := [],
    images := [(c1h, [(["f"], "x")])],
    parents := [(c1h, "None")],
    refsFile := "HEAD=" ++ c1h ++ "\nmaster=" ++ c1h ++ "\n",
    activated := "master" }

/-- C1 counterexample: with HEAD's snapshot holding `f` and an empty
staging area, the spec-level structural diff is non-empty (`f` is removed
relative to HEAD), yet `commit` raises the no-changes error — removals are
invisible to `get_changes_to_be_committed` (`right_only=False`), so the
claimed "if and only if" fails in the only-removals state. -/
theorem C1_counterexample :
    read_references c1st = some [("HEAD", c1h), ("master", c1h)] ∧
    lookupImage c1st.images c1h = some [(["f"], "x")] ∧
    removedPaths c1st.staging [(["f"], "x")] = [["f"]] ∧
    addedPaths c1st.staging [(["f"], "x")] = [] ∧
    modifiedPaths c1st.staging [(["f"], "x")] = [] ∧
    (commit (cid40 'b') none c1st).2 = some WitError.noChanges := by
  set_option maxRecDepth 8192 in decide

/-! ### C10 scenario -/

def c10L : Tree := [(["d1", "f"], "1"), (["d2", "f"], "2")]
def c10R : Tree := [(["d1", "f"], "x"), (["d2", "f"], "y")]

/-- C10: the change sets are lists of bare name components, never
repository-relative paths; two files with the same base name modified in
different subdirectories contribute the indistinguishable entries
`["f", "f"]`; and merge's copy filter selects exactly the paths of `b`'s
snapshot whose base name matches one of the changed names, anywhere in the
tree. -/
theorem C10_change_sets_are_base_names :
    (∀ (fuel : Nat) (l r : Tree) (lo ro df : Bool) (n : String),
      n ∈ get_changes fuel l r lo ro df →
      ∃ p, (p ∈ pathsOf l ∨ p ∈ pathsOf r) ∧ n ∈ p) ∧
    get_changes_to_be_committed c10L c10R = ["f", "f"] ∧
    (∀ (bTree : Tree) (patterns : List String) (p : Path),
      p ∈ pathsOf (mergeCopiedTree bTree patterns) ↔
        (p ∈ pathsOf bTree ∧ ∃ n, p.getLast? = some n ∧ n ∈ patterns)) := by
  refine ⟨get_changes_mem_component, by decide, ?_⟩
  intro bTree patterns p
  unfold mergeCopiedTree pathsOf
  constructor
  · intro h
    rcases List.mem_map.mp h with ⟨e, he, rfl⟩
    have hmem := List.mem_of_mem_filter he
    have hpred := List.of_mem_filter he
    refine ⟨List.mem_map_of_mem _ hmem, ?_⟩
    cases hl : e.1.getLast? with
    | none =>
      rw [hl] at hpred
      cases hpred
    | some n =>
      rw [hl] at hpred
      exact ⟨n, rfl, contains_iff_mem.mp hpred⟩
  · rintro ⟨hmem, n, hlast, hn⟩
    rcases List.mem_map.mp hmem with ⟨e, he, rfl⟩
    refine List.mem_map_of_mem _ (List.mem_filter.mpr ⟨he, ?_⟩)
    rw [hlast]
    exact contains_iff_mem.mpr hn

theorem C10_witness :
    (∃ p, (p ∈ pathsOf c10L ∨ p ∈ pathsOf c10R) ∧ "f" ∈ p) ∧
    (["d1", "f"] ∈ pathsOf (mergeCopiedTree c10R ["f"]) ↔
      (["d1", "f"] ∈ pathsOf c10R ∧
        ∃ n, (["d1", "f"] : Path).getLast? = some n ∧ n ∈ (["f"] : List String))) :=
  ⟨C10_change_sets_are_base_names.1 5 c10L c10R true false true "f" (by decide),
    C10_change_sets_are_base_names.2.2 c10R ["f"] ["d1", "f"]⟩

end Wit

namespace Wit

theorem get_status_ok_parse {st : WitState} {stat : StatusInfo}
    (h : get_status st = Except.ok stat) : ∃ d, read_references st = some d := by
  unfold get_status at h
  cases hr : read_references st with
  | none =>
    rw [hr] at h
    cases h
  | some d => exact ⟨d, rfl⟩

/-- C3: with a resolvable target, `checkout` refuses with the dirty-tree
error whenever the to-be-committed or not-staged set is non-empty, leaving
the whole repository state (working tree, staging area, reference store)
untouched; and when both sets are empty it never raises that error —
untracked files alone cannot cause the refusal. -/
theorem C3_dirty_checkout_refusal (st : WitState) (arg bn cid : String)
    (stat : StatusInfo)
    (hres : resolveCheckoutArg arg st = Except.ok (bn, cid))
    (himg : (lookupImage st.images cid).isSome = true)
    (hstat : get_status st = Except.ok stat) :
    ((stat.toBeCommitted ≠ [] ∨ stat.notStaged ≠ []) →
      checkout arg st = (st, some WitError.unableToCheckout)) ∧
    (stat.toBeCommitted = [] ∧ stat.notStaged = [] →
      (checkout arg st).2 = none) := by
  obtain ⟨target, htgt⟩ := Option.isSome_iff_exists.mp himg
  constructor
  · intro hdirty
    unfold checkout
    simp only [hres, htgt, hstat]
    rw [if_pos hdirty]
  · rintro ⟨h1, h2⟩
    unfold checkout
    simp only [hres, htgt, hstat]
    rw [if_neg (by simp [h1, h2])]
    obtain ⟨d, hd⟩ := get_status_ok_parse hstat
    have hedit : ∃ f, edit_references "HEAD" cid st.refsFile = some f := by
      unfold edit_references
      rw [show txt_to_dict st.refsFile = some d from hd]
      exact ⟨_, rfl⟩
    obtain ⟨f, hf⟩ := hedit
    simp only [hf]

def c3h : String := cid40 'a'

def c3st : WitState :=
  { working := [(["f"], "new")], staging := [(["f"], "new")],
    images := [(c3h, [(["f"], "old")])], parents := [(c3h, "None")],
    refsFile := "HEAD=" ++ c3h ++ "\nmaster=" ++ c3h ++ "\n",
    activated := "master" }

theorem C3_witness :
    checkout "master" c3st = (c3st, some WitError.unableToCheckout) :=
  (C3_dirty_checkout_refusal c3st "master" "master" c3h
      ⟨["f"], [], []⟩
      (by set_option maxRecDepth 8192 in rfl)
      (by set_option maxRecDepth 8192 in rfl)
      (by set_option maxRecDepth 8192 in rfl)).1
    (by decide)

end Wit

namespace Wit

theorem treeDepth_le_changesFuel_left (l r : Tree) : treeDepth l ≤ changesFuel l r := by
  unfold changesFuel
  omega

theorem treeDepth_le_changesFuel_right (l r : Tree) : treeDepth r ≤ changesFuel l r := by
  unfold changesFuel
  omega

theorem gen_references_error_internal {cid refsFile activated : String}
    {e : WitError}
    (h : gen_references cid refsFile activated = Except.error e) :
    e = WitError.internal := by
  unfold gen_references at h
  cases hp : txt_to_dict refsFile with
  | none =>
    simp only [hp] at h
    exact (Except.error.inj h).symm
  | some d =>
    simp only [hp] at h
    by_cases hd : d = []
    · rw [if_pos hd] at h
      exact Except.noConfusion h
    · rw [if_neg hd] at h
      cases h1 : dictGet d "HEAD" with
      | none =>
        simp only [h1] at h
        exact (Except.error.inj h).symm
      | some ch =>
        simp only [h1] at h
        cases h2 : dictGet d activated with
        | none =>
          simp only [h2] at h
          exact (Except.error.inj h).symm
        | some ai =>
          simp only [h2] at h
          cases h3 : edit_references "HEAD" cid refsFile with
          | none =>
            simp only [h3] at h
            exact (Except.error.inj h).symm
          | some f1 =>
            simp only [h3] at h
            cases h4 : edit_references activated (if ch = ai then cid else ai) f1 with
            | none =>
              simp only [h4] at h
              exact (Except.error.inj h).symm
            | some f2 =>
              simp only [h4] at h
              exact Except.noConfusion h

/-- C1 amended: past the initial commit, `commit` fails with the no-changes
error exactly when the *added-or-modified* structural diff between the
staging snapshot and HEAD's snapshot is empty.  Removals relative to HEAD
are invisible to the check (`right_only=False`), so deleting a previously
committed file from the staging area still counts as "no changes". -/
theorem C1_amended (st : WitState) (cid : String) (d : List (String × String))
    (h : String) (htree : Tree)
    (hparse : read_references st = some d) (hne : d ≠ [])
    (hhead : dictGet d "HEAD" = some h) (hh : h ≠ "")
    (himg : lookupImage st.images h = some htree)
    (hfresh : (lookupImage st.images cid).isSome = false)
    (hWl : WFTree st.staging) (hWr : WFTree htree)
    (hC : Compatible st.staging htree) :
    (commit cid none st).2 = some WitError.noChanges ↔
      (addedPaths st.staging htree = [] ∧ modifiedPaths st.staging htree = []) := by
  have hmaster := get_changes_eq_nil_iff (changesFuel st.staging htree)
    st.staging htree true false true hWl hWr hC
    (treeDepth_le_changesFuel_left _ _) (treeDepth_le_changesFuel_right _ _)
  unfold commit
  simp only [hparse]
  rw [if_neg hne]
  simp only [hhead]
  rw [if_neg hh]
  simp only [himg]
  by_cases hch : get_changes_to_be_committed st.staging htree = []
  · rw [if_pos hch]
    unfold get_changes_to_be_committed at hch
    obtain ⟨hm, ha, -⟩ := hmaster.mp hch
    exact iff_of_true rfl ⟨ha rfl, hm rfl⟩
  · rw [if_neg hch]
    rw [if_neg (by simp [hfresh])]
    rw [if_neg (by simp [hne])]
    have hnotnil : ¬ (addedPaths st.staging htree = [] ∧
        modifiedPaths st.staging htree = []) := by
      rintro ⟨hadd, hmod⟩
      refine hch ?_
      show get_changes (changesFuel st.staging htree) st.staging htree true false true = []
      exact hmaster.mpr ⟨fun _ => hmod, fun _ => hadd, fun hfalse => by cases hfalse⟩
    cases hgen : gen_references cid st.refsFile st.activated with
    | error e =>
      simp only [hgen]
      have he := gen_references_error_internal hgen
      subst he
      constructor
      · intro hcon
        simp at hcon
      · intro hcon
        exact absurd hcon hnotnil
    | ok f =>
      simp only [hgen]
      constructor
      · intro hcon
        simp at hcon
      · intro hcon
        exact absurd hcon hnotnil

def c1w : WitState :=
  { working := [(["f"], "x")], staging := [(["f"], "x")],
    images := [(c1h, [(["f"], "x")])], parents := [(c1h, "None")],
    refsFile := "HEAD=" ++ c1h ++ "\nmaster=" ++ c1h ++ "\n",
    activated := "master" }

theorem C1_amended_witness :
    (commit (cid40 'b') none c1w).2 = some WitError.noChanges ↔
      (addedPaths c1w.staging [(["f"], "x")] = [] ∧
        modifiedPaths c1w.staging [(["f"], "x")] = []) :=
  C1_amended c1w (cid40 'b') [("HEAD", c1h), ("master", c1h)] c1h [(["f"], "x")]
    (by set_option maxRecDepth 8192 in decide) (by decide) (by decide) (by decide)
    (by set_option maxRecDepth 8192 in decide) (by set_option maxRecDepth 8192 in decide)
    (by decide) (by decide) (by decide)

end Wit

namespace Wit

theorem dictGet_mem {d : List (String × String)} {k v : String}
    (h : dictGet d k = some v) : (k, v) ∈ d := by
  unfold dictGet at h
  cases hf : d.find? (fun e => decide (e.1 = k)) with
  | none =>
    rw [hf] at h
    cases h
  | some e =>
    rw [hf] at h
    injection h with h
    have hk := List.find?_some hf
    simp only [decide_eq_true_eq] at hk
    have hm := List.mem_of_find?_eq_some hf
    rcases e with ⟨k', v'⟩
    simp only at hk h
    rw [← hk, ← h]
    exact hm

/-- C5: a completed commit rewrites the reference store so that `HEAD` maps
to the new identifier, the activated branch maps to the new identifier
exactly when its commit equalled `HEAD` beforehand (otherwise it is left
unchanged — committing "behind" the branch moves only `HEAD`), and every
other reference is untouched. -/
theorem C5_commit_reference_advancement (st st' : WitState) (cid : String)
    (sp : Option String) (d : List (String × String)) (h act : String)
    (hwf : RefsWF st.refsFile d)
    (hhead : dictGet d "HEAD" = some h)
    (hact : dictGet d st.activated = some act)
    (hactH : st.activated ≠ "HEAD")
    (hgH : GoodKV ("HEAD", cid)) (hgA : GoodKV (st.activated, cid))
    (hcid : cid.length = 40)
    (hfresh : ∀ e ∈ d, e.2 ≠ cid)
    (hrun : commit cid sp st = (st', none)) :
    ∃ d', txt_to_dict st'.refsFile = some d' ∧
      dictGet d' "HEAD" = some cid ∧
      dictGet d' st.activated = some (if h = act then cid else act) ∧
      (dictGet d' st.activated = some cid ↔ h = act) ∧
      (∀ k, k ≠ "HEAD" → k ≠ st.activated → dictGet d' k = dictGet d k) := by
  have hparse : txt_to_dict st.refsFile = some d := hwf.1
  have hne : d ≠ [] := by
    intro h0
    rw [h0] at hhead
    cases hhead
  have hh40 : h.length = 40 := hwf.2.2.2.2 ("HEAD", h) (dictGet_mem hhead)
  have hhne : h ≠ "" := by
    intro h0
    rw [h0] at hh40
    cases hh40
  have hact40 : act.length = 40 := hwf.2.2.2.2 (st.activated, act) (dictGet_mem hact)
  have hactne : act ≠ cid := hfresh (st.activated, act) (dictGet_mem hact)
  have hedit1 := @edit_references_eq st.refsFile d "HEAD" cid hwf hcid
  have hwf1 : RefsWF (serializeRefs (dictInsert d "HEAD" cid)) (dictInsert d "HEAD" cid) :=
    RefsWF_dictInsert hwf.2.2.1 hwf.2.2.2.1 hwf.2.2.2.2 hgH hcid
  have hv2len : (if h = act then cid else act).length = 40 := by
    by_cases hha : h = act
    · rw [if_pos hha]
      exact hcid
    · rw [if_neg hha]
      exact hact40
  have hgv2 : GoodKV (st.activated, if h = act then cid else act) := by
    by_cases hha : h = act
    · rw [if_pos hha]
      exact hgA
    · rw [if_neg hha]
      exact hwf.2.2.2.1 (st.activated, act) (dictGet_mem hact)
  have hedit2 := @edit_references_eq (serializeRefs (dictInsert d "HEAD" cid))
    (dictInsert d "HEAD" cid) st.activated (if h = act then cid else act) hwf1 hv2len
  have hwf2 := RefsWF_dictInsert hwf1.2.2.1 hwf1.2.2.2.1 hwf1.2.2.2.2 hgv2 hv2len
  have hgen : gen_references cid st.refsFile st.activated =
      Except.ok (serializeRefs (dictInsert (dictInsert d "HEAD" cid) st.activated
        (if h = act then cid else act))) := by
    unfold gen_references
    simp only [hparse]
    rw [if_neg hne]
    simp only [hhead, hact, hedit1, hedit2]
  have hparse' : read_references st = some d := hparse
  unfold commit at hrun
  simp only [hparse'] at hrun
  rw [if_neg hne] at hrun
  simp only [hhead] at hrun
  rw [if_neg hhne] at hrun
  cases himg : lookupImage st.images h with
  | none =>
    simp only [himg] at hrun
    exact absurd (congrArg Prod.snd hrun) (by simp)
  | some htree =>
    simp only [himg] at hrun
    by_cases hch : get_changes_to_be_committed st.staging htree = []
    · rw [if_pos hch] at hrun
      exact absurd (congrArg Prod.snd hrun) (by simp)
    · rw [if_neg hch] at hrun
      by_cases hfr : (lookupImage st.images cid).isSome
      · rw [if_pos hfr] at hrun
        exact absurd (congrArg Prod.snd hrun) (by simp)
      · rw [if_neg hfr] at hrun
        rw [if_neg (by simp [hne])] at hrun
        simp only [hgen] at hrun
        injection hrun with hst' hnone
        subst hst'
        refine ⟨dictInsert (dictInsert d "HEAD" cid) st.activated
          (if h = act then cid else act), ?_, ?_, ?_, ?_, ?_⟩
        · exact hwf2.1
        · rw [dictGet_dictInsert_other (Ne.symm hactH)]
          exact dictGet_dictInsert_self
        · exact dictGet_dictInsert_self
        · rw [dictGet_dictInsert_self]
          constructor
          · intro hsome
            by_cases hha : h = act
            · exact hha
            · rw [if_neg hha] at hsome
              injection hsome with hsome
              exact absurd hsome hactne
          · intro hha
            rw [if_pos hha]
        · intro k hk1 hk2
          rw [dictGet_dictInsert_other hk2, dictGet_dictInsert_other hk1]

def c5h : String := cid40 'a'

def c5st : WitState :=
  { working := [(["f"], "new")], staging := [(["f"], "new")],
    images := [(c5h, [(["f"], "old")])], parents := [(c5h, "None")],
    refsFile := "HEAD=" ++ c5h ++ "\nmaster=" ++ c5h ++ "\n",
    activated := "master" }

theorem C5_witness :
    ∃ d', txt_to_dict ((commit (cid40 'b') none c5st).1).refsFile = some d' ∧
      dictGet d' "HEAD" = some (cid40 'b') ∧
      dictGet d' "master" = some (if c5h = c5h then cid40 'b' else c5h) ∧
      (dictGet d' "master" = some (cid40 'b') ↔ c5h = c5h) ∧
      (∀ k, k ≠ "HEAD" → k ≠ "master" →
        dictGet d' k = dictGet [("HEAD", c5h), ("master", c5h)] k) :=
  C5_commit_reference_advancement c5st (commit (cid40 'b') none c5st).1 (cid40 'b')
    none [("HEAD", c5h), ("master", c5h)] c5h c5h
    (by set_option maxRecDepth 8192 in decide)
    (by decide) (by decide) (by decide) (by decide) (by decide)
    (by decide) (by decide)
    (by set_option maxRecDepth 8192 in rfl)

end Wit

namespace Wit

/-! ### C4 scenario: base-name collision between an untracked file and a
tracked target path -/

def c4h1 : String := cid40 '5'
def c4h2 : String := cid40 '6'

def c4st : WitState :=
  { working := [(["a", "x"], "1"), (["x"], "u")],
    staging := [(["a", "x"], "1")],
    images := [(c4h1, [(["a", "x"], "1")]), (c4h2, [(["a", "x"], "2")])],
    parents := [(c4h1, "None"), (c4h2, c4h1)],
    refsFile := "HEAD=" ++ c4h1 ++ "\nmaster=" ++ c4h1 ++ "\n",
    activated := "master" }

/-- C4 counterexample: checking out a commit whose snapshot holds `a/x`
while an untracked file named `x` sits at the repository root succeeds, but
`ignore_patterns` filters the untracked *base name* `x` at every level, so
`a/x` is never copied: the working directory does not carry the target
snapshot's content, and the subsequent status reports a non-empty
"not staged" set. -/
theorem C4_counterexample :
    (checkout c4h2 c4st).2 = none ∧
    lookupImage c4st.images c4h2 = some [(["a", "x"], "2")] ∧
    (get_status c4st).toOption.map (fun s => s.untracked) = some ["x"] ∧
    lookupPath (checkout c4h2 c4st).1.working ["a", "x"] = some "1" ∧
    (get_status (checkout c4h2 c4st).1).toOption.map
      (fun s => (s.toBeCommitted, s.notStaged)) = some ([], ["x"]) := by
  set_option maxRecDepth 8192 in decide

theorem resolveCheckoutArg_cases {arg : String} {st : WitState} {bn cid : String}
    (hres : resolveCheckoutArg arg st = Except.ok (bn, cid)) :
    (arg.length ≠ 40 → bn = arg) ∧ (arg.length = 40 → bn = "" ∧ cid = arg) := by
  unfold resolveCheckoutArg at hres
  by_cases h40 : arg.length = 40
  · rw [if_neg (not_not_intro h40)] at hres
    injection hres with hres
    injection hres with h1 h2
    exact ⟨fun hc => absurd h40 hc, fun _ => ⟨h1.symm, h2.symm⟩⟩
  · rw [if_pos h40] at hres
    refine ⟨fun _ => ?_, fun hc => absurd hc h40⟩
    cases hp : read_references st with
    | none =>
      simp only [hp] at hres
      exact Except.noConfusion hres
    | some ref =>
      simp only [hp] at hres
      cases hg : dictGet ref arg with
      | none =>
        simp only [hg] at hres
        exact Except.noConfusion hres
      | some c =>
        simp only [hg] at hres
        injection hres with hres
        injection hres with h1 h2
        exact h1.symm

theorem get_status_build {st : WitState} {d : List (String × String)}
    {head : String} {headTree : Tree}
    (h1 : read_references st = some d) (h2 : dictGet d "HEAD" = some head)
    (h3 : lookupImage st.images head = some headTree) :
    get_status st = Except.ok
      ⟨get_changes_to_be_committed st.staging headTree,
        get_changes_not_staged st.working st.staging,
        get_untracked st.working st.staging⟩ := by
  unfold get_status
  simp only [h1, h2, h3]

/-- C4 amended: after a successful `checkout(X)`, the staging snapshot is
the target snapshot, `HEAD` names the target commit in the rewritten
reference store, and the active branch is `X` exactly when `X` was resolved
as a branch name (length ≠ 40) and is cleared otherwise.  The working
directory receives the target files *except* those skipped because some
path component matches an untracked base name; when no such base-name
collision exists, the working directory carries the full target content and
a subsequent status reports empty "to be committed" and "not staged" sets
("to be committed" is empty unconditionally). -/
theorem C4_amended (st st' : WitState) (arg bn cid : String) (target : Tree)
    (stat : StatusInfo) (d : List (String × String))
    (hrun : checkout arg st = (st', none))
    (hres : resolveCheckoutArg arg st = Except.ok (bn, cid))
    (htgt : lookupImage st.images cid = some target)
    (hstat : get_status st = Except.ok stat)
    (hwf : RefsWF st.refsFile d)
    (hcid : cid.length = 40) (hgcid : GoodKV ("HEAD", cid))
    (hWt : WFTree target) (hWw : WFTree st.working)
    (hCwt : Compatible st.working target) :
    st'.staging = target ∧
    st'.activated = bn ∧
    (arg.length ≠ 40 → bn = arg) ∧
    (arg.length = 40 → bn = "" ∧ cid = arg) ∧
    txt_to_dict st'.refsFile = some (dictInsert d "HEAD" cid) ∧
    dictGet (dictInsert d "HEAD" cid) "HEAD" = some cid ∧
    st'.working = overrideTree st.working
      (target.filter (fun e => !(e.1.any (fun c => stat.untracked.contains c)))) ∧
    (∃ stat', get_status st' = Except.ok stat' ∧
      stat'.toBeCommitted = [] ∧
      ((∀ p ∈ pathsOf target, ∀ c ∈ p, c ∉ stat.untracked) →
        stat'.notStaged = [] ∧
        (∀ p ∈ pathsOf target, lookupPath st'.working p = lookupPath target p))) := by
  have hedit := @edit_references_eq st.refsFile d "HEAD" cid hwf hcid
  have hwfI := RefsWF_dictInsert hwf.2.2.1 hwf.2.2.2.1 hwf.2.2.2.2 hgcid hcid
  unfold checkout at hrun
  simp only [hres, htgt, hstat] at hrun
  by_cases hdirty : stat.toBeCommitted ≠ [] ∨ stat.notStaged ≠ []
  · rw [if_pos hdirty] at hrun
    exact absurd (congrArg Prod.snd hrun) (by simp)
  · rw [if_neg hdirty] at hrun
    simp only [hedit] at hrun
    injection hrun with hst' hnone
    subst hst'
    have hbn := resolveCheckoutArg_cases hres
    refine ⟨rfl, rfl, hbn.1, hbn.2, hwfI.1, dictGet_dictInsert_self, rfl, ?_⟩
    refine ⟨⟨get_changes_to_be_committed target target,
        get_changes_not_staged (overrideTree st.working
          (target.filter (fun e => !(e.1.any (fun c => stat.untracked.contains c)))))
          target,
        get_untracked (overrideTree st.working
          (target.filter (fun e => !(e.1.any (fun c => stat.untracked.contains c)))))
          target⟩, ?_, ?_, ?_⟩
    · exact get_status_build hwfI.1 dictGet_dictInsert_self htgt
    · exact get_changes_self _ _ _ _ _
    · intro hnocol
      have hfilter : target.filter
          (fun e => !(e.1.any (fun c => stat.untracked.contains c))) = target := by
        apply List.filter_eq_self.mpr
        intro e he
        rw [Bool.not_eq_true']
        cases hany : e.1.any (fun c => stat.untracked.contains c)
        · rfl
        · rw [List.any_eq_true] at hany
          obtain ⟨c, hc, hcc⟩ := hany
          exact absurd (contains_iff_mem.mp hcc)
            (hnocol e.1 (List.mem_map_of_mem _ he) c hc)
      have hCot : Compatible (overrideTree st.working target) target := by
        constructor
        · intro p hp q hq hpq
          rcases mem_pathsOf_overrideTree.mp hp with h | h
          · exact hCwt.1 p h q hq hpq
          · exact hWt.2.2.1 p h q hq hpq
        · intro q hq p hp hqp
          rcases mem_pathsOf_overrideTree.mp hp with h | h
          · exact hCwt.2 q hq p h hqp
          · exact hWt.2.2.1 q hq p h hqp
      have hmodnil : modifiedPaths (overrideTree st.working target) target = [] := by
        rw [eq_nil_iff_forall_not_mem]
        intro p hp
        rw [mem_modifiedPaths] at hp
        obtain ⟨hp1, hp2, hp3⟩ := hp
        refine hp3 ?_
        rw [lookupPath_overrideTree, if_pos hp2]
      constructor
      · show get_changes_not_staged (overrideTree st.working
          (target.filter (fun e => !(e.1.any (fun c => stat.untracked.contains c)))))
          target = []
        rw [hfilter]
        exact (get_changes_eq_nil_iff (changesFuel (overrideTree st.working target) target)
          (overrideTree st.working target) target false false true
          (WFTree_overrideTree hWw hWt hCwt) hWt hCot
          (treeDepth_le_changesFuel_left _ _) (treeDepth_le_changesFuel_right _ _)).mpr
          ⟨fun _ => hmodnil, ⟨fun hf => Bool.noConfusion hf, fun hf => Bool.noConfusion hf⟩⟩
      · intro p hp
        show lookupPath (overrideTree st.working
          (target.filter (fun e => !(e.1.any (fun c => stat.untracked.contains c))))) p =
          lookupPath target p
        rw [hfilter, lookupPath_overrideTree, if_pos hp]

end Wit

namespace Wit

def c4wh1 : String := cid40 '7'
def c4wh2 : String := cid40 '8'

def c4wst : WitState :=
  { working := [(["f"], "1")], staging := [(["f"], "1")],
    images := [(c4wh1, [(["f"], "1")]), (c4wh2, [(["f"], "2")])],
    parents := [(c4wh1, "None"), (c4wh2, c4wh1)],
    refsFile := "HEAD=" ++ c4wh1 ++ "\nmaster=" ++ c4wh1 ++ "\ndev=" ++ c4wh2 ++ "\n",
    activated := "master" }

theorem C4_amended_witness :
    ((checkout "dev" c4wst).1).staging = [(["f"], "2")] ∧
    ((checkout "dev" c4wst).1).activated = "dev" ∧
    (("dev" : String).length ≠ 40 → "dev" = "dev") ∧
    (("dev" : String).length = 40 → "dev" = "" ∧ c4wh2 = "dev") ∧
    txt_to_dict ((checkout "dev" c4wst).1).refsFile =
      some (dictInsert [("HEAD", c4wh1), ("master", c4wh1), ("dev", c4wh2)]
        "HEAD" c4wh2) ∧
    dictGet (dictInsert [("HEAD", c4wh1), ("master", c4wh1), ("dev", c4wh2)]
      "HEAD" c4wh2) "HEAD" = some c4wh2 ∧
    ((checkout "dev" c4wst).1).working = overrideTree c4wst.working
      (List.filter (fun e => !(e.1.any (fun c =>
        (([] : List String)).contains c))) [(["f"], "2")]) ∧
    (∃ stat', get_status ((checkout "dev" c4wst).1) = Except.ok stat' ∧
      stat'.toBeCommitted = [] ∧
      ((∀ p ∈ pathsOf [(["f"], "2")], ∀ c ∈ p, c ∉ ([] : List String)) →
        stat'.notStaged = [] ∧
        (∀ p ∈ pathsOf [(["f"], "2")],
          lookupPath ((checkout "dev" c4wst).1).working p =
            lookupPath [(["f"], "2")] p))) :=
  C4_amended c4wst ((checkout "dev" c4wst).1) "dev" "dev" c4wh2 [(["f"], "2")]
    ⟨[], [], []⟩ [("HEAD", c4wh1), ("master", c4wh1), ("dev", c4wh2)]
    (by set_option maxRecDepth 8192 in rfl)
    (by set_option maxRecDepth 8192 in rfl)
    (by set_option maxRecDepth 8192 in decide)
    (by set_option maxRecDepth 8192 in rfl)
    (by set_option maxRecDepth 8192 in decide)
    (by decide) (by decide) (by decide) (by decide) (by decide)

end Wit

namespace Wit

/-! ## C2: merge semantics -/

/-- Whenever `commit` reports an error, that error is `noChanges` or
`internal`; in particular a nested `commit` call never reports
`invalidMerge`. -/
theorem commit_snd_cases {cid : String} {sp : Option String} {st st' : WitState}
    {e : WitError} (h : commit cid sp st = (st', some e)) :
    e = WitError.noChanges ∨ e = WitError.internal := by
  unfold commit at h
  cases hp : read_references st with
  | none =>
    simp only [hp] at h
    injection h with h1 h2
    exact Or.inr (Option.some.inj h2).symm
  | some ref =>
    simp only [hp] at h
    cases hh : (if ref = [] then some "" else dictGet ref "HEAD") with
    | none =>
      simp only [hh] at h
      injection h with h1 h2
      exact Or.inr (Option.some.inj h2).symm
    | some head =>
      simp only [hh] at h
      cases ht : (if head = "" then some ([] : Tree) else lookupImage st.images head) with
      | none =>
        simp only [ht] at h
        injection h with h1 h2
        exact Or.inr (Option.some.inj h2).symm
      | some headTree =>
        simp only [ht] at h
        by_cases hch : get_changes_to_be_committed st.staging headTree = []
        · simp only [if_pos hch] at h
          injection h with h1 h2
          exact Or.inl (Option.some.inj h2).symm
        · simp only [if_neg hch] at h
          by_cases hfr : (lookupImage st.images cid).isSome = true
          · simp only [if_pos hfr] at h
            injection h with h1 h2
            exact Or.inr (Option.some.inj h2).symm
          · simp only [if_neg hfr] at h
            by_cases hsec : ref = [] ∧ sp.isSome = true
            · simp only [if_pos hsec] at h
              injection h with h1 h2
              exact Or.inr (Option.some.inj h2).symm
            · simp only [if_neg hsec] at h
              cases hgen : gen_references cid st.refsFile st.activated with
              | error e2 =>
                simp only [hgen] at h
                injection h with h1 h2
                rcases gen_references_error_internal hgen with rfl
                exact Or.inr (Option.some.inj h2).symm
              | ok f =>
                simp only [hgen] at h
                injection h with h1 h2
                exact Option.noConfusion h2

/-- The second-parent suffix of the `parent=` field a commit writes. -/
def parentFieldSuffix : Option String → String
  | some b => "," ++ b
  | none => ""

/-- A successful `commit` appends exactly one parents entry: the new id
mapped to the old `HEAD` id, with `,second` appended for a merge commit. -/
theorem commit_parents_eq {cid : String} {sp : Option String} {st st' : WitState}
    {d : List (String × String)} {hd0 : String}
    (hd : read_references st = some d) (hne : d ≠ [])
    (hH : dictGet d "HEAD" = some hd0) (hh0 : hd0 ≠ "")
    (hrun : commit cid sp st = (st', none)) :
    st'.parents = st.parents ++ [(cid, hd0 ++ parentFieldSuffix sp)] := by
  unfold commit at hrun
  simp only [hd, if_neg hne] at hrun
  simp only [hH] at hrun
  simp only [if_neg hh0] at hrun
  cases himg : lookupImage st.images hd0 with
  | none =>
    simp only [himg] at hrun
    exact absurd (congrArg Prod.snd hrun) (by simp)
  | some htree =>
    simp only [himg] at hrun
    by_cases hch : get_changes_to_be_committed st.staging htree = []
    · simp only [if_pos hch] at hrun
      exact absurd (congrArg Prod.snd hrun) (by simp)
    · simp only [if_neg hch] at hrun
      by_cases hfr : (lookupImage st.images cid).isSome = true
      · simp only [if_pos hfr] at hrun
        exact absurd (congrArg Prod.snd hrun) (by simp)
      · simp only [if_neg hfr] at hrun
        have hsec : ¬(d = [] ∧ sp.isSome = true) := fun hx => hne hx.1
        simp only [if_neg hsec] at hrun
        cases hgen : gen_references cid st.refsFile st.activated with
        | error e2 =>
          simp only [hgen] at hrun
          exact absurd (congrArg Prod.snd hrun) (by simp)
        | ok f =>
          simp only [hgen] at hrun
          injection hrun with hst hsnd
          rw [← hst]
          cases sp <;> rfl

/-- Looking up an id that no existing parents entry carries, after appending
an entry for it, returns the appended value. -/
theorem rawParent_append_fresh {ps : ParentStore} {cid v : String}
    (hfr : ∀ e ∈ ps, e.1 ≠ cid) :
    rawParent (ps ++ [(cid, v)]) cid = v := by
  unfold rawParent
  rw [List.find?_append]
  have h1 : ps.find? (fun e => e.1 = cid) = none := by
    rw [List.find?_eq_none]
    intro e he
    simp [hfr e he]
  rw [h1, Option.none_or, List.find?_cons_of_pos _ (by simp)]

/-- On a path that survives the merge-copy filter, the filtered snapshot
looks up the same content as `b`'s full snapshot. -/
theorem lookupPath_mergeCopiedTree {bTree : Tree} {patterns : List String}
    {p : Path} (hm : p ∈ pathsOf (mergeCopiedTree bTree patterns)) :
    lookupPath (mergeCopiedTree bTree patterns) p = lookupPath bTree p := by
  rcases List.mem_map.mp hm with ⟨e0, he0, hkey⟩
  have hq0 := List.of_mem_filter he0
  unfold lookupPath mergeCopiedTree
  rw [find?_filter_of_imp]
  intro x hx
  simp only [decide_eq_true_eq] at hx
  show (match x.1.getLast? with
    | some n => patterns.contains n
    | none => false) = true
  rw [hx, ← hkey]
  exact hq0

end Wit

namespace Wit

/-- Root commit of the C2 scenario. -/
def c2idR : String := cid40 '3'
/-- Active-branch head of the C2 scenario. -/
def c2idA : String := cid40 '1'
/-- Other-branch head of the C2 scenario. -/
def c2idB : String := cid40 '2'
/-- Fresh id drawn for the merge commit of the C2 scenario. -/
def c2idM : String := cid40 '4'

/-- Snapshot of the root commit: two files named `f` in two directories. -/
def c2base : Tree := [(["d1", "f"], "one"), (["d2", "f"], "two")]
/-- Snapshot of `a`: only `d2/f` changed relative to the root. -/
def c2aT : Tree := [(["d1", "f"], "one"), (["d2", "f"], "nine")]
/-- Snapshot of `b`: only `d1/f` changed relative to the root. -/
def c2bT : Tree := [(["d1", "f"], "three"), (["d2", "f"], "two")]

/-- A repository on branch `master` at `a`, with branch `other` at `b`,
both children of the root commit, and a clean staging area. -/
def c2st : WitState :=
  { working := c2aT
    staging := c2aT
    images := [(c2idR, c2base), (c2idA, c2aT), (c2idB, c2bT)]
    parents := [(c2idR, "None"), (c2idA, c2idR), (c2idB, c2idR)]
    refsFile := "HEAD=" ++ c2idA ++ "\nmaster=" ++ c2idA ++ "\nother=" ++ c2idB ++ "\n"
    activated := "master" }

/-- C2: counterexample.  Between the common ancestor and `b` only `d1/f`
changed (`d2/f` holds `"two"` in both), so the claim says the merge copies
exactly `d1/f` from `b` and leaves the staged `d2/f` (holding `"nine"`)
unchanged.  The merge succeeds, but because changed files are matched by
*base name*, `d2/f` is also copied from `b`: the staged `d2/f` ends up as
`"two"`, not `"nine"`. -/
theorem C2_counterexample :
    modifiedPaths c2base c2bT = [["d1", "f"]] ∧
    addedPaths c2base c2bT = [] ∧
    lookupPath c2st.staging ["d2", "f"] = some "nine" ∧
    (merge "other" c2idM c2st).2 = none ∧
    lookupPath ((merge "other" c2idM c2st).1).staging ["d2", "f"] = some "two" := by
  set_option maxRecDepth 8192 in decide

end Wit

namespace Wit

/-- The staging snapshot left by a clean `merge`: the part of `b`'s
snapshot whose base names match a name changed between `base` and `b`,
copied over the staged files. -/
def mergedStaging (st : WitState) (baseTree bTree : Tree) : Tree :=
  overrideTree st.staging
    (mergeCopiedTree bTree
      (get_changes (changesFuel baseTree bTree) baseTree bTree false true true))

/-- C2 (amended): with the active branch at `a`, the other branch at a
different commit `b` and common ancestor `base`, `merge` fails with the
dirty-merge error — leaving the state unchanged — exactly when the staging
snapshot differs from `a`'s snapshot.  On a clean stage it overlays onto
the staging snapshot the part of `b`'s snapshot whose *base names* match a
name changed (added or modified) between `base` and `b` — so a staged path
keeps its content only if its base name matches no changed name — and
commits the result; the new commit's recorded parents are exactly
`[a, b]`. -/
theorem C2_amended (st : WitState) (other cid : String)
    (d : List (String × String)) (a b base : String)
    (baseTree bTree aTree : Tree)
    (hd : read_references st = some d)
    (ha : dictGet d st.activated = some a) (hb : dictGet d other = some b)
    (hab : a ≠ b)
    (hH : dictGet d "HEAD" = some a) (hane : a ≠ "")
    (hbase : get_common_parent st.parents (st.parents.length + 1) a b = some base)
    (hbaseT : lookupImage st.images base = some baseTree)
    (hbT : lookupImage st.images b = some bTree)
    (haT : lookupImage st.images a = some aTree)
    (hWs : WFTree st.staging) (hWa : WFTree aTree)
    (hCsa : Compatible st.staging aTree)
    (hcid : cid ≠ "") (hfresh : ∀ e ∈ st.parents, e.1 ≠ cid)
    (hna : ',' ∉ a.data) (hnb : ',' ∉ b.data) :
    ((merge other cid st).2 = some WitError.invalidMerge ↔
      ¬ treeEquiv st.staging aTree) ∧
    (¬ treeEquiv st.staging aTree →
      merge other cid st = (st, some WitError.invalidMerge)) ∧
    (treeEquiv st.staging aTree →
      merge other cid st =
        commit cid (some b) { st with staging := mergedStaging st baseTree bTree }) ∧
    (∀ p, lookupPath (mergedStaging st baseTree bTree) p =
      if p ∈ pathsOf (mergeCopiedTree bTree
          (get_changes (changesFuel baseTree bTree) baseTree bTree
            false true true))
      then lookupPath bTree p else lookupPath st.staging p) ∧
    ((merge other cid st).2 = none →
      get_parent_commit ((merge other cid st).1).parents cid =
        ParentVal.multi [a, b]) := by
  have hstep : merge other cid st =
      (if get_changes (changesFuel st.staging aTree) st.staging aTree
          true true true ≠ [] then
        (st, some WitError.invalidMerge)
      else commit cid (some b)
        { st with staging := mergedStaging st baseTree bTree }) := by
    unfold merge
    simp only [hd, ha, hb, hbase, hbaseT, hbT, haT]
    rw [if_neg (by simp [hab])]
    rfl
  have hdirty_iff :
      (get_changes (changesFuel st.staging aTree) st.staging aTree
          true true true = []) ↔ treeEquiv st.staging aTree := by
    rw [get_changes_eq_nil_iff _ _ _ _ _ _ hWs hWa hCsa
        (treeDepth_le_changesFuel_left _ _) (treeDepth_le_changesFuel_right _ _),
      treeEquiv_iff_diffs_nil]
    constructor
    · rintro ⟨hm, hA, hR⟩
      exact ⟨hm rfl, hA rfl, hR rfl⟩
    · rintro ⟨hm, hA, hR⟩
      exact ⟨fun _ => hm, fun _ => hA, fun _ => hR⟩
  refine ⟨?_, ?_, ?_, ?_, ?_⟩
  · rw [hstep]
    by_cases hEq : treeEquiv st.staging aTree
    · rw [if_neg (not_not_intro (hdirty_iff.mpr hEq))]
      constructor
      · intro hc
        have hrun : commit cid (some b)
              { st with staging := mergedStaging st baseTree bTree } =
            ((commit cid (some b)
              { st with staging := mergedStaging st baseTree bTree }).1,
              some WitError.invalidMerge) := by
          rw [← hc]
        rcases commit_snd_cases hrun with hx | hx
        · exact absurd hx (by decide)
        · exact absurd hx (by decide)
      · intro hne
        exact absurd hEq hne
    · rw [if_pos (fun hnil => hEq (hdirty_iff.mp hnil))]
      exact ⟨fun _ => hEq, fun _ => rfl⟩
  · intro hEq
    rw [hstep, if_pos (fun hnil => hEq (hdirty_iff.mp hnil))]
  · intro hEq
    rw [hstep, if_neg (not_not_intro (hdirty_iff.mpr hEq))]
  · intro p
    unfold mergedStaging
    rw [lookupPath_overrideTree]
    by_cases hmem : p ∈ pathsOf (mergeCopiedTree bTree
        (get_changes (changesFuel baseTree bTree) baseTree bTree false true true))
    · rw [if_pos hmem, if_pos hmem, lookupPath_mergeCopiedTree hmem]
    · rw [if_neg hmem, if_neg hmem]
  · intro hsucc
    by_cases hEq : treeEquiv st.staging aTree
    · have h3 : merge other cid st =
          commit cid (some b) { st with staging := mergedStaging st baseTree bTree } := by
        rw [hstep, if_neg (not_not_intro (hdirty_iff.mpr hEq))]
      have hsnd : (commit cid (some b)
          { st with staging := mergedStaging st baseTree bTree }).2 = none := by
        rw [← h3]
        exact hsucc
      have hrun : commit cid (some b)
            { st with staging := mergedStaging st baseTree bTree } =
          ((commit cid (some b)
            { st with staging := mergedStaging st baseTree bTree }).1, none) := by
        rw [← hsnd]
      have hdM : read_references
          { st with staging := mergedStaging st baseTree bTree } = some d := hd
      have hpar := commit_parents_eq hdM
        (by
          intro hnil
          rw [hnil] at hH
          simp [dictGet] at hH)
        hH hane hrun
      have hparM : ((merge other cid st).1).parents =
          st.parents ++ [(cid, a ++ parentFieldSuffix (some b))] := by
        rw [h3]
        exact hpar
      rw [hparM]
      unfold get_parent_commit
      rw [if_neg hcid]
      have hraw : rawParent
          (st.parents ++ [(cid, a ++ parentFieldSuffix (some b))]) cid =
          a ++ parentFieldSuffix (some b) := rawParent_append_fresh hfresh
      simp only [hraw]
      have hdata : (a ++ parentFieldSuffix (some b)).data =
          a.data ++ (',' :: b.data) := by
        show (a ++ ("," ++ b)).data = a.data ++ (',' :: b.data)
        rw [String.data_append, String.data_append]
        rfl
      have hcontains : (a ++ parentFieldSuffix (some b)).data.contains ',' = true := by
        rw [hdata]
        exact contains_iff_mem.mpr (List.mem_append_right _ (List.mem_cons_self _ _))
      rw [if_pos hcontains]
      congr 1
      unfold commaSplit
      rw [hdata, chSplit_append_sep hna, chSplit_no_sep hnb]
      simp [string_mk_data]
    · have hbad : merge other cid st = (st, some WitError.invalidMerge) := by
        rw [hstep, if_pos (fun hnil => hEq (hdirty_iff.mp hnil))]
      rw [hbad] at hsucc
      exact Option.noConfusion hsucc

end Wit

namespace Wit

theorem C2_amended_witness :
    ((merge "other" c2idM c2st).2 = some WitError.invalidMerge ↔
      ¬ treeEquiv c2st.staging c2aT) ∧
    (¬ treeEquiv c2st.staging c2aT →
      merge "other" c2idM c2st = (c2st, some WitError.invalidMerge)) ∧
    (treeEquiv c2st.staging c2aT →
      merge "other" c2idM c2st =
        commit c2idM (some c2idB) { c2st with staging := mergedStaging c2st c2base c2bT }) ∧
    (∀ p, lookupPath (mergedStaging c2st c2base c2bT) p =
      if p ∈ pathsOf (mergeCopiedTree c2bT
          (get_changes (changesFuel c2base c2bT) c2base c2bT
            false true true))
      then lookupPath c2bT p else lookupPath c2st.staging p) ∧
    ((merge "other" c2idM c2st).2 = none →
      get_parent_commit ((merge "other" c2idM c2st).1).parents c2idM =
        ParentVal.multi [c2idA, c2idB]) :=
  C2_amended c2st "other" c2idM
    [("HEAD", c2idA), ("master", c2idA), ("other", c2idB)]
    c2idA c2idB c2idR c2base c2bT c2aT
    (by set_option maxRecDepth 8192 in rfl)
    (by set_option maxRecDepth 8192 in rfl)
    (by set_option maxRecDepth 8192 in rfl)
    (by decide)
    (by set_option maxRecDepth 8192 in rfl)
    (by decide)
    (by set_option maxRecDepth 8192 in rfl)
    (by set_option maxRecDepth 8192 in rfl)
    (by set_option maxRecDepth 8192 in rfl)
    (by set_option maxRecDepth 8192 in rfl)
    (by decide) (by decide) (by decide)
    (by decide) (by decide)
    (by decide) (by decide)

end Wit
